import Mathlib

/-!
Verification of the PyNBT NBT (Named Binary Tag) codec and region container.

This file gives a shallow embedding of `pynbt/nbt.py` and `pynbt/region.py`:

* byte-level packing mirrors Python `struct.pack`/`struct.unpack` with the
  big-endian (default) format prefix; out-of-range values fail, as
  `struct.error` does;
* strings mirror Python `str.encode('utf-8')` / `bytes.decode('utf-8')`:
  a string is a list of Unicode code points, encoding is standard strict
  UTF-8 (surrogates rejected), decoding is strict (overlong forms,
  surrogates and out-of-range code points rejected);
* the tag tree mirrors the `TAG_*` class hierarchy, with `TAG_Float` and
  `TAG_Double` values carried as their raw IEEE-754 byte representation
  (the codec moves those bytes verbatim, so nothing more is needed);
* the reader mirrors `BaseTag.read` (with fuel for the recursion), the
  writer mirrors `BaseTag.write`, and the region helpers mirror
  `chunk_location`, `RegionFile.__init__` and `RegionFile.used_chunks`.
-/

namespace PyNBT

/-- Strings are sequences of Unicode code points, as Python `str` is. -/
abbrev Str := List Nat

/-! ## struct.pack / struct.unpack (big-endian, signed) -/

/-- Big-endian bytes of `n`, exactly `w` bytes wide (low byte last). -/
def natToBytesBE : Nat → Nat → List Nat
  | 0, _ => []
  | w + 1, n => natToBytesBE w (n / 256) ++ [n % 256]

/-- Models `struct.pack('>X', v)` for the signed formats `b`/`h`/`i`/`q`
(`w` bytes wide): two's-complement big-endian bytes, failing (as
`struct.error` does) when the value is out of range. -/
def packBE (w : Nat) (v : Int) : Option (List Nat) :=
  if -((2 : Int) ^ (8 * w - 1)) ≤ v ∧ v < (2 : Int) ^ (8 * w - 1) then
    some (natToBytesBE w (v % ((2 : Int) ^ (8 * w))).toNat)
  else none

/-- Big-endian unsigned value of a byte list. -/
def bytesToNatBE (bs : List Nat) : Nat := bs.foldl (fun a b => a * 256 + b) 0

/-- Models `struct.unpack('>X', bs)` for the signed formats: interpret the
bytes as a two's-complement big-endian integer. -/
def unpackBE (bs : List Nat) : Int :=
  let u := bytesToNatBE bs
  if u < 2 ^ (8 * bs.length - 1) then (u : Int)
  else (u : Int) - (2 : Int) ^ (8 * bs.length)

/-! ## UTF-8 (Python `str.encode('utf-8')` / `bytes.decode('utf-8')`, strict) -/

/-- Strict UTF-8 encoding of one code point; `none` for surrogates and
code points past U+10FFFF (Python raises `UnicodeEncodeError` there). -/
def utf8EncodeChar (c : Nat) : Option (List Nat) :=
  if c < 0x80 then some [c]
  else if c < 0x800 then some [0xC0 + c / 64, 0x80 + c % 64]
  else if c < 0x10000 then
    if 0xD800 ≤ c ∧ c ≤ 0xDFFF then none
    else some [0xE0 + c / 4096, 0x80 + c / 64 % 64, 0x80 + c % 64]
  else if c < 0x110000 then
    some [0xF0 + c / 262144, 0x80 + c / 4096 % 64, 0x80 + c / 64 % 64,
      0x80 + c % 64]
  else none

/-- Strict UTF-8 encoding of a string (concatenated code point encodings). -/
def utf8EncodeStr : Str → Option (List Nat)
  | [] => some []
  | c :: cs => do
    let b ← utf8EncodeChar c
    let r ← utf8EncodeStr cs
    return b ++ r

/-- Whether a byte is a UTF-8 continuation byte (`0x80`–`0xBF`). -/
def isCont (b : Nat) : Prop := 0x80 ≤ b ∧ b < 0xC0

instance (b : Nat) : Decidable (isCont b) := by unfold isCont; infer_instance

/-- Strict UTF-8 decoding, as Python `bytes.decode('utf-8')`: rejects stray
continuation bytes, overlong forms, surrogates, truncated sequences and
code points past U+10FFFF. -/
def utf8Decode : List Nat → Option Str
  | [] => some []
  | b :: r =>
    if b < 0x80 then (utf8Decode r).map (b :: ·)
    else if b < 0xC2 then none
    else if b < 0xE0 then
      match r with
      | b1 :: r1 =>
        if isCont b1 then
          (utf8Decode r1).map (((b - 0xC0) * 64 + (b1 - 0x80)) :: ·)
        else none
      | _ => none
    else if b < 0xF0 then
      match r with
      | b1 :: b2 :: r2 =>
        if isCont b1 ∧ isCont b2 then
          let c := (b - 0xE0) * 4096 + (b1 - 0x80) * 64 + (b2 - 0x80)
          if c < 0x800 ∨ (0xD800 ≤ c ∧ c ≤ 0xDFFF) then none
          else (utf8Decode r2).map (c :: ·)
        else none
      | _ => none
    else if b < 0xF5 then
      match r with
      | b1 :: b2 :: b3 :: r3 =>
        if isCont b1 ∧ isCont b2 ∧ isCont b3 then
          let c := (b - 0xF0) * 262144 + (b1 - 0x80) * 4096 +
            (b2 - 0x80) * 64 + (b3 - 0x80)
          if c < 0x10000 ∨ 0x110000 ≤ c then none
          else (utf8Decode r3).map (c :: ·)
        else none
      | _ => none
    else none

/-! ## The tag model (`TAG_*` classes of `pynbt/nbt.py`) -/

/-- The eleven concrete tag classes (`_tags` entries `0x01`–`0x0B`);
entry `0x00` (`TAG_End`, the `None` entry of `_tags`) is not a class. -/
inductive TagKind where
  | byte
  | short
  | int
  | long
  | float
  | double
  | byteArray
  | string
  | list
  | compound
  | intArray
deriving DecidableEq, Repr

/-- Models `_tags.index(cls)`: the wire kind id of each tag class. -/
def tagsIndex : TagKind → Int
  | .byte => 1
  | .short => 2
  | .int => 3
  | .long => 4
  | .float => 5
  | .double => 6
  | .byteArray => 7
  | .string => 8
  | .list => 9
  | .compound => 10
  | .intArray => 11

/-- The entries of the `_tags` tuple by non-negative position:
`none` is the `TAG_End` placeholder at index 0. -/
def tagsEntry : Nat → Option TagKind
  | 1 => some .byte
  | 2 => some .short
  | 3 => some .int
  | 4 => some .long
  | 5 => some .float
  | 6 => some .double
  | 7 => some .byteArray
  | 8 => some .string
  | 9 => some .list
  | 10 => some .compound
  | 11 => some .intArray
  | _ => none

/-- Models the Python expression `_tags[i]` on the 12-entry tuple: Python
indexing accepts `-12 ≤ i < 12`, mapping negative `i` to `i + 12`
(so a signed kind byte of `-1`, wire `0xFF`, selects entry 11); outside
that range it raises `IndexError`, modeled as `none`.  The inner
`Option TagKind` is the tuple entry itself, whose index-0 value is the
`None` placeholder for `TAG_End`. -/
def tagsLookup (i : Int) : Option (Option TagKind) :=
  if 0 ≤ i ∧ i < 12 then some (tagsEntry i.toNat)
  else if -12 ≤ i ∧ i < 0 then some (tagsEntry (i + 12).toNat)
  else none

mutual
/-- A tag tree.  Every constructor carries the optional `name` and the
per-kind `value` of the corresponding `TAG_*` class.  `float` and
`double` carry the raw IEEE-754 big-endian bytes of their value. -/
inductive Tag where
  | byte (name : Option Str) (v : Int)
  | short (name : Option Str) (v : Int)
  | int (name : Option Str) (v : Int)
  | long (name : Option Str) (v : Int)
  | float (name : Option Str) (bits : List Nat)
  | double (name : Option Str) (bits : List Nat)
  | byteArray (name : Option Str) (v : List Int)
  | string (name : Option Str) (v : Str)
  | list (name : Option Str) (elemType : TagKind) (items : List LElem)
  | compound (name : Option Str) (entries : List (Str × Tag))
  | intArray (name : Option Str) (v : List Int)

/-- An element of a `TAG_List`'s Python `list` payload: a tag, or a raw
(unwrapped) integer that `BaseTag.write` converts on the fly. -/
inductive LElem where
  | tag (t : Tag)
  | rawInt (n : Int)
end

/-- The `name` attribute of a tag. -/
def tagName : Tag → Option Str
  | .byte nm _ => nm
  | .short nm _ => nm
  | .int nm _ => nm
  | .long nm _ => nm
  | .float nm _ => nm
  | .double nm _ => nm
  | .byteArray nm _ => nm
  | .string nm _ => nm
  | .list nm _ _ => nm
  | .compound nm _ => nm
  | .intArray nm _ => nm

/-- The class (kind) of a tag, as `isinstance`/`__class__` sees it. -/
def tagKind : Tag → TagKind
  | .byte _ _ => .byte
  | .short _ _ => .short
  | .int _ _ => .int
  | .long _ _ => .long
  | .float _ _ => .float
  | .double _ _ => .double
  | .byteArray _ _ => .byteArray
  | .string _ _ => .string
  | .list _ _ _ => .list
  | .compound _ _ => .compound
  | .intArray _ _ => .intArray

/-- Assignment to a tag's `name` attribute. -/
def setTagName (t : Tag) (nm : Option Str) : Tag :=
  match t with
  | .byte _ v => .byte nm v
  | .short _ v => .short nm v
  | .int _ v => .int nm v
  | .long _ v => .long nm v
  | .float _ b => .float nm b
  | .double _ b => .double nm b
  | .byteArray _ v => .byteArray nm v
  | .string _ v => .string nm v
  | .list _ k it => .list nm k it
  | .compound _ e => .compound nm e
  | .intArray _ v => .intArray nm v

/-! ## Compound dictionary operations -/

/-- Python `dict` assignment `d[key] = v` on an insertion-ordered map:
an existing key keeps its position and gets the new value; a new key is
appended. -/
def dictSet (d : List (Str × Tag)) (key : Str) (v : Tag) : List (Str × Tag) :=
  if d.any (fun p => p.1 = key) then
    d.map (fun p => if p.1 = key then (p.1, v) else p)
  else d ++ [(key, v)]

/-- Models `TAG_Compound.__setitem__`: sets the tag's name from the key
only when the name `is None`, then stores it under the key. -/
def compoundSetItem (d : List (Str × Tag)) (key : Str) (v : Tag) :
    List (Str × Tag) :=
  let v2 := if tagName v = none then setTagName v (some key) else v
  dictSet d key v2

/-- Models `TAG_List.__init__(tag_type, value, name)`: records the element
type and copies the provided elements, with no kind check of any sort. -/
def tagListInit (tag_type : TagKind) (value : Option (List LElem))
    (name : Option Str) : Tag :=
  Tag.list name tag_type (value.getD [])

/-! ## Region files (`pynbt/region.py`) -/

/-- Models `chunk_location(l)` of `pynbt/region.py` verbatim:
`offset = ((l >> 8) & 0xFF) + ((l >> 16) & 0xFF) + ((l >> 32) & 0xFF)`,
`size = l & 0xFF`, returning `(offset * 4096, size * 4096)`.  Python
`>>` on an int is a floor shift (`Int.fdiv` by a power of two) and
`& 0xFF` is the non-negative residue mod 256 (`Int.emod`). -/
def chunk_location (l : Int) : Int × Int :=
  let offset := (l.fdiv 256) % 256 + (l.fdiv 65536) % 256 +
    (l.fdiv 4294967296) % 256
  let size := l % 256
  (offset * 4096, size * 4096)

/-- The `enumerate` loop body of `RegionFile.used_chunks`: index `i` with a
non-zero location contributes coordinate `((i & 0x1F) + rx, (i >> 5) + ry)`. -/
def usedChunksAux (rx ry : Int) : Nat → List Int → List (Int × Int)
  | _, [] => []
  | i, l :: rest =>
    if l = 0 then usedChunksAux rx ry (i + 1) rest
    else ((i % 32 : Nat) + rx, (i / 32 : Nat) + ry) :: usedChunksAux rx ry (i + 1) rest

/-- Models `RegionFile.used_chunks`: `rxRaw`/`ryRaw` are the region
coordinates parsed from the file name, shifted left by 5 (`<< 5`), and
each non-zero location-table entry contributes its chunk coordinate. -/
def usedChunks (locs : List Int) (rxRaw ryRaw : Int) : List (Int × Int) :=
  usedChunksAux (rxRaw * 32) (ryRaw * 32) 0 locs

/-- Models the per-slot loop of `RegionFile.__init__`.  The byte source is
abstracted: `hdrAt off` is the `(length, compression)` pair unpacked at
byte offset `off`, and `chunkAt off len` stands for decompressing that
blob and parsing it as an NBT document (gzip for scheme 1, zlib for
scheme 2).  A slot whose computed offset is 0, or whose compression
byte is 0, is appended as absent (`none`); a compression byte outside
{0, 1, 2} matches no branch and appends nothing at all. -/
def regionInit {α : Type} (locs times : List Int) (hdrAt : Int → Int × Int)
    (chunkAt : Int → Int → α) : List (Option (Int × α)) :=
  match locs, times with
  | l :: ls, ts :: tss =>
    let off := (chunk_location l).1
    if off = 0 then none :: regionInit ls tss hdrAt chunkAt
    else
      let hdr := hdrAt off
      if hdr.2 = 0 then none :: regionInit ls tss hdrAt chunkAt
      else if hdr.2 = 1 then
        some (ts, chunkAt off hdr.1) :: regionInit ls tss hdrAt chunkAt
      else if hdr.2 = 2 then
        some (ts, chunkAt off hdr.1) :: regionInit ls tss hdrAt chunkAt
      else regionInit ls tss hdrAt chunkAt
  | _, _ => []

/-! ## Writing (`BaseTag.write`, with the big-endian default of `NBTFile.save`) -/

/-- Models `BaseTag._write_utf8`: `write('h', len(value))` writes the
character count of the Python string as a signed 16-bit length, then
`value.encode('utf-8')` writes the UTF-8 bytes.  Note the prefix is the
character count, not the byte count of the encoding. -/
def writeUtf8 (s : Str) : Option (List Nat) := do
  let lb ← packBE 2 (s.length : Int)
  let body ← utf8EncodeStr s
  return lb ++ body

/-- Element packing for the array formats (`'{0}b'`/`'{0}i'`): every
element packed at width `w`. -/
def packList (w : Nat) : List Int → Option (List Nat)
  | [] => some []
  | v :: vs => do
    let b ← packBE w v
    let r ← packList w vs
    return b ++ r

/-- Floor of the base-2 logarithm, fuel-structured so it evaluates by
kernel reduction (`log2F m m` matches `Nat.log2 m` for every `m ≥ 1`:
each step halves `m`, so `m` itself is always enough fuel). -/
def log2F : Nat → Nat → Nat
  | 0, _ => 0
  | f + 1, m => if m < 2 then 0 else log2F f (m / 2) + 1

/-- Floor of the base-2 logarithm of `m`. -/
def natLog2 (m : Nat) : Nat := log2F m m

/-- Round a positive magnitude `m` to `prec` significant bits, IEEE-754
round-to-nearest with ties to even: the result `(e, s)` satisfies
`2 ^ (prec - 1) ≤ s < 2 ^ prec`, the rounded value is
`s * 2 ^ (e + 1 - prec)`, and `e` is its binary exponent. -/
def roundSig (prec : Nat) (m : Nat) : Nat × Nat :=
  let b := natLog2 m
  if b + 1 ≤ prec then (b, m * 2 ^ (prec - 1 - b))
  else
    let shift := b + 1 - prec
    let q := m / 2 ^ shift
    let r := m % 2 ^ shift
    let half := 2 ^ (shift - 1)
    let q2 := if half < r ∨ (r = half ∧ q % 2 = 1) then q + 1 else q
    if q2 = 2 ^ prec then (b + 1, 2 ^ (prec - 1)) else (b, q2)

/-- Models `struct.pack('>d', n)` for a Python int `n`: the implicit
`float(n)` rounds to 53 significant bits (`OverflowError` past the
binary64 range, exponent over 1023 after rounding), then the IEEE-754
binary64 value is emitted as 8 big-endian bytes. -/
def packD8 (n : Int) : Option (List Nat) :=
  if n = 0 then some (natToBytesBE 8 0)
  else
    let sign : Nat := if n < 0 then 1 else 0
    let (e, s) := roundSig 53 n.natAbs
    if 1023 < e then none
    else some (natToBytesBE 8
      (sign * 2 ^ 63 + (e + 1023) * 2 ^ 52 + (s - 2 ^ 52)))

/-- Models `struct.pack('>f', n)` for a Python int `n`: `float(n)` rounds
to 53 significant bits (`OverflowError` past the binary64 range), then
packing narrows that double to 24 significant bits, again round to
nearest ties to even (`OverflowError` past the binary32 range, exponent
over 127), and emits the IEEE-754 binary32 value as 4 big-endian bytes. -/
def packF4 (n : Int) : Option (List Nat) :=
  if n = 0 then some (natToBytesBE 4 0)
  else
    let sign : Nat := if n < 0 then 1 else 0
    let (e1, s1) := roundSig 53 n.natAbs
    if 1023 < e1 then none
    else
      let (b2, s2) := roundSig 24 s1
      let e2 := e1 + b2 - 52
      if 127 < e2 then none
      else some (natToBytesBE 4
        (sign * 2 ^ 31 + (e2 + 127) * 2 ^ 23 + (s2 - 2 ^ 23)))

/-- Models converting and writing a raw (non-tag) list element: the source
runs `item = self.type_(item)` and then `item.write(write)`; the wrapper
has name `None`, so only its value payload is written.  For a raw int
under a scalar int kind that is the packed value (out of range raises
`struct.error`); under `Float`/`Double` the pack converts the int through
`float()` and succeeds within range (`packF4`/`packD8`); for the remaining
declared kinds the wrapper's write raises (`len()` of an int, an int where
`_tags.index` or a dict/list is expected), modeled as failure. -/
def rawScalarWrite (k : TagKind) (n : Int) : Option (List Nat) :=
  match k with
  | .byte => packBE 1 n
  | .short => packBE 2 n
  | .int => packBE 4 n
  | .long => packBE 8 n
  | .float => packF4 n
  | .double => packD8 n
  | _ => none

mutual
/-- Models `BaseTag.write`: when the tag's name is not `None`, write the
kind-id byte (`_tags.index(self.__class__)`; the `NBTFile` branch writes
the same byte `0x0A` explicitly) and the name, then the value payload. -/
def encodeTag (t : Tag) : Option (List Nat) :=
  match tagName t with
  | none => encodePayload t
  | some nm => do
    let kb ← packBE 1 (tagsIndex (tagKind t))
    let nb ← writeUtf8 nm
    let pb ← encodePayload t
    return kb ++ nb ++ pb
termination_by (sizeOf t, 1)
decreasing_by all_goals (simp_wf <;> omega)

/-- The per-kind value payload written by `BaseTag.write`. -/
def encodePayload (t : Tag) : Option (List Nat) :=
  match t with
  | .byte _ v => packBE 1 v
  | .short _ v => packBE 2 v
  | .int _ v => packBE 4 v
  | .long _ v => packBE 8 v
  | .float _ bits => if bits.length = 4 then some bits else none
  | .double _ bits => if bits.length = 8 then some bits else none
  | .byteArray _ v => do
    let lb ← packBE 4 (v.length : Int)
    let eb ← packList 1 v
    return lb ++ eb
  | .string _ s => writeUtf8 s
  | .list _ k items => do
    let kb ← packBE 1 (tagsIndex k)
    let cb ← packBE 4 (items.length : Int)
    let body ← encodeElems k items
    return kb ++ cb ++ body
  | .compound _ entries => do
    let body ← encodeEntries entries
    return body ++ [0]
  | .intArray _ v => do
    let lb ← packBE 4 (v.length : Int)
    let eb ← packList 4 v
    return lb ++ eb
termination_by (sizeOf t, 0)
decreasing_by all_goals (simp_wf <;> omega)

/-- The element loop of `BaseTag.write` for a `TAG_List`: an element
already of the declared class is written as is (its own `write`, so a
non-`None` name would be emitted too); any other element is first
converted by `self.type_(item)`.  Wrapping a tag of a different class
produces a wrapper whose write raises, modeled as failure; a raw int is
handled by `rawScalarWrite`. -/
def encodeElems (k : TagKind) (items : List LElem) : Option (List Nat) :=
  match items with
  | [] => some []
  | .tag t :: rest =>
    if tagKind t = k then do
      let b ← encodeTag t
      let r ← encodeElems k rest
      return b ++ r
    else none
  | .rawInt n :: rest => do
    let b ← rawScalarWrite k n
    let r ← encodeElems k rest
    return b ++ r
termination_by (sizeOf items, 2)
decreasing_by all_goals (simp_wf <;> omega)

/-- The child loop of `BaseTag.write` for a `TAG_Compound`: each stored
value is written with its own `write` (the dict key is not consulted). -/
def encodeEntries (entries : List (Str × Tag)) : Option (List Nat) :=
  match entries with
  | [] => some []
  | (_, v) :: rest => do
    let b ← encodeTag v
    let r ← encodeEntries rest
    return b ++ r
termination_by (sizeOf entries, 2)
decreasing_by all_goals (simp_wf <;> omega)
end

/-! ## Reading (`BaseTag.read` and `NBTFile.__init__`, big-endian) -/

/-- Read exactly `n` bytes; fewer available means the following
`struct.unpack` raises (`unpack requires a buffer of n bytes`). -/
def readBytesExact (n : Nat) (xs : List Nat) : Option (List Nat × List Nat) :=
  if n ≤ xs.length then some (xs.take n, xs.drop n) else none

/-- Models `read(fmt, size)` for one signed big-endian field of `w` bytes. -/
def readIntBE (w : Nat) (xs : List Nat) : Option (Int × List Nat) :=
  (readBytesExact w xs).map (fun p => (unpackBE p.1, p.2))

/-- Models unpacking `c` consecutive signed fields of width `w`
(the `'{0}b'`/`'{0}i'` array formats). -/
def readIntsBE (w : Nat) : Nat → List Nat → Option (List Int × List Nat)
  | 0, xs => some ([], xs)
  | c + 1, xs => do
    let (v, r) ← readIntBE w xs
    let (vs, r2) ← readIntsBE w c r
    return (v :: vs, r2)

/-- Models `BaseTag._read_utf8`: read a signed 16-bit length, then
`read.io.read(length)` — which returns at most that many bytes (fewer at
end of stream, everything for a negative argument) — and decode the
result as strict UTF-8. -/
def readUtf8 (xs : List Nat) : Option (Str × List Nat) := do
  let (len, r) ← readIntBE 2 xs
  let body := if len < 0 then r else r.take len.toNat
  let rest := if len < 0 then [] else r.drop len.toNat
  let s ← utf8Decode body
  return (s, rest)

mutual
/-- Models `cls.read(read, has_name)` of `BaseTag.read`: read the name when
requested, then dispatch on the class exactly as the source's `if`/`elif`
chain does.  `fuel` only bounds the recursion depth; every recursive
call consumes input, and the top-level entry point supplies more fuel
than any parse can use. -/
def readTag : Nat → TagKind → Bool → List Nat → Option (Tag × List Nat)
  | 0, _, _, _ => none
  | f + 1, k, hasName, xs => do
    let (nm, xs1) ←
      if hasName then (readUtf8 xs).map (fun p => (some p.1, p.2))
      else some (none, xs)
    match k with
    | .byte => do
      let (v, r) ← readIntBE 1 xs1
      return (Tag.byte nm v, r)
    | .short => do
      let (v, r) ← readIntBE 2 xs1
      return (Tag.short nm v, r)
    | .int => do
      let (v, r) ← readIntBE 4 xs1
      return (Tag.int nm v, r)
    | .long => do
      let (v, r) ← readIntBE 8 xs1
      return (Tag.long nm v, r)
    | .float => do
      let (b, r) ← readBytesExact 4 xs1
      return (Tag.float nm b, r)
    | .double => do
      let (b, r) ← readBytesExact 8 xs1
      return (Tag.double nm b, r)
    | .string => do
      let (s, r) ← readUtf8 xs1
      return (Tag.string nm s, r)
    | .byteArray => do
      let (n, r1) ← readIntBE 4 xs1
      if n < 0 then none
      else do
        let (vs, r2) ← readIntsBE 1 n.toNat r1
        return (Tag.byteArray nm vs, r2)
    | .intArray => do
      let (n, r1) ← readIntBE 4 xs1
      if n < 0 then none
      else do
        let (vs, r2) ← readIntsBE 4 n.toNat r1
        return (Tag.intArray nm vs, r2)
    | .list => do
      let (tv, r1) ← readIntBE 1 xs1
      let (cnt, r2) ← readIntBE 4 r1
      let cls ← tagsLookup tv
      let ek ← cls
      let (items, r3) ← readElems f ek cnt.toNat r2
      return (Tag.list nm ek (items.map LElem.tag), r3)
    | .compound => do
      let (entries, r) ← readCompoundBody f [] xs1
      return (Tag.compound nm entries, r)

/-- The child loop of `TAG_Compound`'s read: read kind-id bytes until a
`TAG_End` (0), dispatching each through `_tags[tag]` (Python tuple
indexing, so negative signed bytes index from the end) and storing each
child in the dict under its own name. -/
def readCompoundBody : Nat → List (Str × Tag) → List Nat →
    Option (List (Str × Tag) × List Nat)
  | 0, _, _ => none
  | f + 1, acc, xs => do
    let (tagId, r1) ← readIntBE 1 xs
    if tagId = 0 then some (acc, r1)
    else do
      let cls ← tagsLookup tagId
      let k ← cls
      let (t, r2) ← readTag f k true r1
      readCompoundBody f (dictSet acc ((tagName t).getD []) t) r2

/-- The element loop of `TAG_List`'s read: `count` unnamed children of the
declared kind.  A negative declared count makes `range(0, length)`
empty, which the caller models by passing `Int.toNat` of the count. -/
def readElems : Nat → TagKind → Nat → List Nat → Option (List Tag × List Nat)
  | _, _, 0, xs => some ([], xs)
  | 0, _, _ + 1, _ => none
  | f + 1, k, c + 1, xs => do
    let (t, r) ← readTag f k false xs
    let (ts, r2) ← readElems f k c r
    return (t :: ts, r2)
end

/-- Models `NBTFile.__init__(io=...)` with the default big-endian setting:
the first byte must be `0x0A`, then the root `TAG_Compound` is read,
name included.  Unpacking `read('bi', 5)` in one call fails exactly when
reading the two fields in sequence does, so the model reads in sequence.
Trailing bytes after the root compound are ignored, as the source
ignores them. -/
def decodeDocAux (xs : List Nat) : Option (Tag × List Nat) := do
  let (b, r) ← readIntBE 1 xs
  if b = 10 then readTag (xs.length + 1) TagKind.compound true r else none

/-- The decoded document itself (the `NBTFile` wraps the root compound's
name and entries, exposing the root tag directly). -/
def decodeDoc (xs : List Nat) : Option Tag :=
  (decodeDocAux xs).map (fun p => p.1)

/-! ## Statement helpers -/

/-- Concatenation of the value payloads of a list of tags, used to state
what a `TAG_List` body is made of. -/
def encodePayloads : List Tag → Option (List Nat)
  | [] => some []
  | t :: rest => do
    let b ← encodePayload t
    let r ← encodePayloads rest
    return b ++ r
termination_by ts => sizeOf ts

/-- A root compound holding one empty list named `"x"` of the given
element kind. -/
def emptyListDoc (k : TagKind) : Tag :=
  Tag.compound (some []) [([120], Tag.list (some [120]) k [])]

/-- The wire bytes of `emptyListDoc k`: root kind and empty name, the
list's kind id and name, the declared element kind id, a zero count,
and the closing `TAG_End`. -/
def emptyListDocBytes (k : TagKind) : List Nat :=
  [10, 0, 0, 9, 0, 1, 120, (tagsIndex k).toNat, 0, 0, 0, 0, 0]

/-- A root compound holding one list named `"x"` of the given element kind
whose single element is the raw (unwrapped) Python int `5`, which
`BaseTag.write` must convert on the fly. -/
def rawIntListDoc (k : TagKind) : Tag :=
  Tag.compound (some []) [([120], Tag.list (some [120]) k [LElem.rawInt 5])]

/-- The root compound of the repository's `test_mutf8` scenario: name `""`,
one `TAG_String` named `"mutf_8"` holding the single code point U+2764. -/
def heartDoc : Tag :=
  Tag.compound (some [])
    [([109, 117, 116, 102, 95, 56],
      Tag.string (some [109, 117, 116, 102, 95, 56]) [0x2764])]

/-- The bytes `BaseTag.write` actually produces for `heartDoc`: the string
length prefix is `00 01` (the character count of `"❤"`). -/
def heartActualBytes : List Nat :=
  [0x0A, 0, 0, 0x08, 0, 6, 0x6D, 0x75, 0x74, 0x66, 0x5F, 0x38,
    0, 1, 0xE2, 0x9D, 0xA4, 0]

/-- The byte sequence the specification (and the repository's own
`test_mutf8`) requires for `heartDoc`: string length prefix `00 03`,
the byte count of the UTF-8 encoding. -/
def heartSpecBytes : List Nat :=
  [0x0A, 0, 0, 0x08, 0, 6, 0x6D, 0x75, 0x74, 0x66, 0x5F, 0x38,
    0, 3, 0xE2, 0x9D, 0xA4, 0]

/-! ## A state-passing rendering of `BaseTag.write`

`BaseTag.write` is an in-place traversal of a Python object graph; to talk
about what the traversal does to the tree, each function below returns the
tag tree as it stands after the write, alongside the bytes written.  The
only assignment in the source's element loop, `item = self.type_(item)`,
rebinds the local variable: the converted wrapper is what gets written,
while the stored element stays in the list. -/

mutual
/-- State-passing `BaseTag.write`: bytes written and the tag afterwards. -/
def encodeTagS (t : Tag) : Option (List Nat × Tag) :=
  match tagName t with
  | none => encodePayloadS t
  | some nm => do
    let kb ← packBE 1 (tagsIndex (tagKind t))
    let nb ← writeUtf8 nm
    let (pb, t2) ← encodePayloadS t
    return (kb ++ nb ++ pb, t2)
termination_by (sizeOf t, 1)
decreasing_by all_goals (simp_wf <;> omega)

/-- State-passing per-kind payload write. -/
def encodePayloadS (t : Tag) : Option (List Nat × Tag) :=
  match t with
  | .byte nm v => (packBE 1 v).map (fun b => (b, Tag.byte nm v))
  | .short nm v => (packBE 2 v).map (fun b => (b, Tag.short nm v))
  | .int nm v => (packBE 4 v).map (fun b => (b, Tag.int nm v))
  | .long nm v => (packBE 8 v).map (fun b => (b, Tag.long nm v))
  | .float nm bits =>
    if bits.length = 4 then some (bits, Tag.float nm bits) else none
  | .double nm bits =>
    if bits.length = 8 then some (bits, Tag.double nm bits) else none
  | .byteArray nm v => do
    let lb ← packBE 4 (v.length : Int)
    let eb ← packList 1 v
    return (lb ++ eb, Tag.byteArray nm v)
  | .string nm s => (writeUtf8 s).map (fun b => (b, Tag.string nm s))
  | .list nm k items => do
    let kb ← packBE 1 (tagsIndex k)
    let cb ← packBE 4 (items.length : Int)
    let (body, items2) ← encodeElemsS k items
    return (kb ++ cb ++ body, Tag.list nm k items2)
  | .compound nm entries => do
    let (body, entries2) ← encodeEntriesS entries
    return (body ++ [0], Tag.compound nm entries2)
  | .intArray nm v => do
    let lb ← packBE 4 (v.length : Int)
    let eb ← packList 4 v
    return (lb ++ eb, Tag.intArray nm v)
termination_by (sizeOf t, 0)
decreasing_by all_goals (simp_wf <;> omega)

/-- State-passing element loop: a matching element is written through its
own `write` (so its subtree is whatever that write leaves behind); a raw
element is wrapped into a fresh local tag for writing, and the stored
element stays as it was. -/
def encodeElemsS (k : TagKind) (items : List LElem) :
    Option (List Nat × List LElem) :=
  match items with
  | [] => some ([], [])
  | .tag t :: rest =>
    if tagKind t = k then do
      let (b, t2) ← encodeTagS t
      let (r, rest2) ← encodeElemsS k rest
      return (b ++ r, LElem.tag t2 :: rest2)
    else none
  | .rawInt n :: rest => do
    let b ← rawScalarWrite k n
    let (r, rest2) ← encodeElemsS k rest
    return (b ++ r, LElem.rawInt n :: rest2)
termination_by (sizeOf items, 2)
decreasing_by all_goals (simp_wf <;> omega)

/-- State-passing compound child loop. -/
def encodeEntriesS (entries : List (Str × Tag)) :
    Option (List Nat × List (Str × Tag)) :=
  match entries with
  | [] => some ([], [])
  | (nm, v) :: rest => do
    let (b, v2) ← encodeTagS v
    let (r, rest2) ← encodeEntriesS rest
    return (b ++ r, (nm, v2) :: rest2)
termination_by (sizeOf entries, 2)
decreasing_by all_goals (simp_wf <;> omega)
end

/-- A region byte source whose every header read yields length 0 and
compression byte 0 (the erased-chunk case). -/
def zeroHdr : Int → Int × Int := fun _ => (0, 0)

/-- A trivial chunk parser for region statements that never reach the
compressed payload. -/
def unitChunk : Int → Int → Unit := fun _ _ => ()

/-! ## Helper lemmas -/

theorem tagName_setTagName (t : Tag) (nm : Option Str) :
    tagName (setTagName t nm) = nm := by
  cases t <;> rfl

theorem encodeTag_unnamed (t : Tag) (h : tagName t = none) :
    encodeTag t = encodePayload t := by
  rw [encodeTag, h]

theorem packBE_one_tagsIndex (k : TagKind) :
    packBE 1 (tagsIndex k) = some [(tagsIndex k).toNat] := by
  cases k <;> rfl

/-- The element loop writes exactly the concatenated value payloads when
every element is an unnamed tag of the declared kind. -/
theorem encodeElems_unnamed (k : TagKind) (ts : List Tag)
    (h : ∀ t ∈ ts, tagName t = none ∧ tagKind t = k) :
    encodeElems k (ts.map LElem.tag) = encodePayloads ts := by
  induction ts with
  | nil => simp [encodeElems, encodePayloads]
  | cons t rest ih =>
    obtain ⟨h1, h2⟩ := h t (List.mem_cons_self t rest)
    rw [List.map_cons, encodeElems, encodePayloads]
    simp only [h2, if_pos rfl, encodeTag_unnamed t h1,
      ih (fun u hu => h u (List.mem_cons_of_mem t hu)), eq_self_iff_true,
      if_true]

theorem chunk_location_zero : chunk_location 0 = (0, 0) := by decide

theorem chunk_location_one : chunk_location 1 = (0, 4096) := by decide

theorem usedChunksAux_replicate_zero (rx ry : Int) (n i : Nat) :
    usedChunksAux rx ry i (List.replicate n 0) = [] := by
  induction n generalizing i with
  | zero => rfl
  | succ m ih => simp [List.replicate_succ, usedChunksAux, ih]

theorem regionInit_replicate_zero {α : Type} (n : Nat) (t : Int)
    (h : Int → Int × Int) (c : Int → Int → α) :
    regionInit (List.replicate n 0) (List.replicate n t) h c =
      List.replicate n none := by
  induction n with
  | zero => rfl
  | succ m ih =>
    rw [List.replicate_succ, List.replicate_succ, List.replicate_succ]
    simp [regionInit, chunk_location_zero, ih]

/-- Membership in the scan loop, with the running index made explicit. -/
theorem usedChunksAux_mem (rx ry x y : Int) (locs : List Int) (i : Nat) :
    (x, y) ∈ usedChunksAux rx ry i locs ↔
      ∃ j, j < locs.length ∧ locs.getD j 0 ≠ 0 ∧
        x = (((i + j) % 32 : Nat) : Int) + rx ∧
        y = (((i + j) / 32 : Nat) : Int) + ry := by
  induction locs generalizing i with
  | nil => simp [usedChunksAux]
  | cons l rest ih =>
    rw [usedChunksAux]
    by_cases hl : l = 0
    · rw [if_pos hl, ih (i + 1)]
      constructor
      · rintro ⟨j, hj, hnz, hx, hy⟩
        have e : i + 1 + j = i + (j + 1) := by omega
        rw [e] at hx hy
        exact ⟨j + 1, by simpa using Nat.succ_lt_succ hj, by simpa using hnz,
          hx, hy⟩
      · rintro ⟨j, hj, hnz, hx, hy⟩
        match j, hj, hnz, hx, hy with
        | 0, hj, hnz, hx, hy => simp [hl] at hnz
        | j2 + 1, hj, hnz, hx, hy =>
          have e : i + (j2 + 1) = i + 1 + j2 := by omega
          rw [e] at hx hy
          exact ⟨j2, by simpa using Nat.lt_of_succ_lt_succ hj,
            by simpa using hnz, hx, hy⟩
    · rw [if_neg hl, List.mem_cons, ih (i + 1)]
      constructor
      · rintro (heq | ⟨j, hj, hnz, hx, hy⟩)
        · rw [Prod.mk.injEq] at heq
          refine ⟨0, by simp, by simpa using hl, ?_, ?_⟩
          · simpa using heq.1
          · simpa using heq.2
        · have e : i + 1 + j = i + (j + 1) := by omega
          rw [e] at hx hy
          exact ⟨j + 1, by simpa using Nat.succ_lt_succ hj, by simpa using hnz,
            hx, hy⟩
      · rintro ⟨j, hj, hnz, hx, hy⟩
        match j, hj, hnz, hx, hy with
        | 0, hj, hnz, hx, hy =>
          left
          rw [Prod.mk.injEq]
          constructor
          · simpa using hx
          · simpa using hy
        | j2 + 1, hj, hnz, hx, hy =>
          right
          have e : i + (j2 + 1) = i + 1 + j2 := by omega
          rw [e] at hx hy
          exact ⟨j2, by simpa using Nat.lt_of_succ_lt_succ hj,
            by simpa using hnz, hx, hy⟩

/-! ## Claim theorems -/

/-- C8 counterexample: a region whose only non-zero location entry is
`0x00000001` (size field 1, offset field 0).  The index-only scan
reports chunk `(0, 0)` as used, but the full load computes byte offset
0 for that very slot and loads every slot as absent. -/
theorem c8_counterexample_scan_vs_load :
    usedChunks (1 :: List.replicate 1023 0) 0 0 = [(0, 0)] ∧
    regionInit (1 :: List.replicate 1023 0) ((0 : Int) :: List.replicate 1023 0)
        zeroHdr unitChunk = List.replicate 1024 (none : Option (Int × Unit)) := by
  constructor
  · rw [usedChunks, usedChunksAux, if_neg (by norm_num : ¬(1 : Int) = 0),
      usedChunksAux_replicate_zero]
    norm_num
  · conv_rhs => rw [show (1024 : Nat) = 1023 + 1 from rfl, List.replicate_succ]
    rw [regionInit, chunk_location_one, if_pos rfl, regionInit_replicate_zero]

/-- C8 amended: the fast scan returns exactly the coordinates whose
location-table entry is non-zero; the full load yields a non-absent
chunk only at slots with a non-zero entry, but not conversely — a
non-zero entry whose computed byte offset is 0, or whose compression
byte is 0 (or unknown), loads as absent, so the scan can strictly
over-approximate the loaded set. -/
theorem c8_amended_scan_exact_load_subset :
    (∀ (locs : List Int) (rxRaw ryRaw x y : Int),
      (x, y) ∈ usedChunks locs rxRaw ryRaw ↔
        ∃ j, j < locs.length ∧ locs.getD j 0 ≠ 0 ∧
          x = ((j % 32 : Nat) : Int) + rxRaw * 32 ∧
          y = ((j / 32 : Nat) : Int) + ryRaw * 32) ∧
    ∀ (α : Type) (locs times : List Int) (hdrAt : Int → Int × Int)
      (chunkAt : Int → Int → α),
      (regionInit locs times hdrAt chunkAt).countP (fun e => e.isSome) ≤
        locs.countP (fun l => decide (l ≠ 0)) := by
  constructor
  · intro locs rxRaw ryRaw x y
    rw [usedChunks, usedChunksAux_mem]
    simp
  · intro α locs times hdrAt chunkAt
    induction locs generalizing times with
    | nil => simp [regionInit]
    | cons l ls ih =>
      cases times with
      | nil => simp [regionInit]
      | cons ts tss =>
        have rhsLe : List.countP (fun v => decide (v ≠ 0)) ls ≤
            List.countP (fun v => decide (v ≠ 0)) (l :: ls) := by
          rw [List.countP_cons]
          exact Nat.le_add_right _ _
        have absent : ∀ rest : List (Option (Int × α)),
            List.countP (fun e => e.isSome) (none :: rest) =
              List.countP (fun e => e.isSome) rest := by
          intro rest
          simp [List.countP_cons]
        rw [regionInit]
        by_cases hoff : (chunk_location l).1 = 0
        · rw [if_pos hoff, absent]
          exact Nat.le_trans (ih tss) rhsLe
        · have hl : l ≠ 0 := by
            intro h
            rw [h, chunk_location_zero] at hoff
            exact hoff rfl
          have rhsEq : List.countP (fun v => decide (v ≠ 0)) (l :: ls) =
              List.countP (fun v => decide (v ≠ 0)) ls + 1 := by
            simp [List.countP_cons, hl]
          have present : ∀ (z : Int × α) (rest : List (Option (Int × α))),
              List.countP (fun e => e.isSome) (some z :: rest) =
                List.countP (fun e => e.isSome) rest + 1 := by
            intro z rest
            simp [List.countP_cons]
          rw [if_neg hoff]
          by_cases hc0 : (hdrAt (chunk_location l).1).2 = 0
          · rw [if_pos hc0, absent]
            exact Nat.le_trans (ih tss) rhsLe
          · rw [if_neg hc0]
            by_cases hc1 : (hdrAt (chunk_location l).1).2 = 1
            · rw [if_pos hc1, present, rhsEq]
              exact Nat.add_le_add_right (ih tss) 1
            · rw [if_neg hc1]
              by_cases hc2 : (hdrAt (chunk_location l).1).2 = 2
              · rw [if_pos hc2, present, rhsEq]
                exact Nat.add_le_add_right (ih tss) 1
              · rw [if_neg hc2]
                exact Nat.le_trans (ih tss) rhsLe

/-- C1 (code bug): encoding the `test_mutf8` document produces
`heartActualBytes`, whose 16-bit string length prefix is `00 01` — the
character count of `"❤"` written by `write('h', len(value))` — and not
the specified `heartSpecBytes` with the byte count `00 03` that the
repository's own `test_mutf8` asserts. -/
theorem c1_string_length_prefix_is_char_count :
    encodeTag heartDoc = some heartActualBytes ∧
      heartActualBytes ≠ heartSpecBytes := by
  constructor
  · simp [heartDoc, heartActualBytes, encodeTag, encodePayload, encodeEntries,
      writeUtf8, utf8EncodeStr, utf8EncodeChar, packBE, natToBytesBE,
      tagsIndex, tagName, tagKind]
  · decide

/-- C2 (code bug): for location entry `0x00020001` the code returns byte
offset `8192` (it sums the shifted bytes of the offset field), while the
claimed formula `(l >> 8) * 4096` gives `2097152`; the size half
`(l & 0xFF) * 4096 = 4096` matches. -/
theorem c2_chunk_location_offset_diverges :
    chunk_location 131073 = (8192, 4096) ∧
      (131073 : Int).fdiv 256 * 4096 = 2097152 ∧
      (8192 : Int) ≠ 2097152 := by
  refine ⟨by decide, by decide, by decide⟩

/-- C3 (code bug): the round-trip fails on a tree with a non-ASCII string:
encoding `heartDoc` succeeds, but decoding the result fails (the reader
consumes `length` bytes where the writer wrote the character count, so
the UTF-8 decode of the truncated body errors), rather than returning
`heartDoc`. -/
theorem c3_roundtrip_fails_on_nonascii :
    encodeTag heartDoc = some heartActualBytes ∧
      decodeDoc heartActualBytes = none := by
  constructor
  · simp [heartDoc, heartActualBytes, encodeTag, encodePayload, encodeEntries,
      writeUtf8, utf8EncodeStr, utf8EncodeChar, packBE, natToBytesBE,
      tagsIndex, tagName, tagKind]
  · rfl

/-- C5 counterexample: inserting a tag whose name is already `"j"` under
key `"k"` stores it with its old name — `__setitem__` only assigns the
name when it `is None`, so name and key diverge. -/
theorem c5_counterexample_name_key_diverge :
    compoundSetItem [] [107] (Tag.byte (some [106]) 1) =
      [([107], Tag.byte (some [106]) 1)] ∧
    tagName (Tag.byte (some [106]) 1) ≠ some [107] :=
  ⟨rfl, by decide⟩

/-- C5 amended: inserting a tag whose name is `None` under key `k` stores
it with name `k`, and preserves the name-equals-key invariant; a tag
inserted with a pre-set name keeps that name instead. -/
theorem c5_amended_setitem_coherence (d : List (Str × Tag)) (k : Str)
    (v : Tag) (hv : tagName v = none)
    (hd : ∀ p ∈ d, tagName p.2 = some p.1) :
    (k, setTagName v (some k)) ∈ compoundSetItem d k v ∧
      ∀ p ∈ compoundSetItem d k v, tagName p.2 = some p.1 := by
  unfold compoundSetItem dictSet
  rw [hv]
  simp only [if_pos rfl]
  by_cases h : d.any (fun p => p.1 = k)
  · rw [if_pos h]
    obtain ⟨p, hp, hpk⟩ := List.any_eq_true.mp h
    simp only [decide_eq_true_eq] at hpk
    constructor
    · exact List.mem_map.mpr ⟨p, hp, by simp [hpk]⟩
    · intro q hq
      obtain ⟨p2, hp2, hq2⟩ := List.mem_map.mp hq
      by_cases hk : p2.1 = k
      · rw [← hq2]
        simp [hk, tagName_setTagName]
      · rw [← hq2]
        simp only [hk, if_neg, ite_false]
        exact hd p2 hp2
  · rw [if_neg h]
    constructor
    · exact List.mem_append.mpr (Or.inr (List.mem_singleton.mpr rfl))
    · intro q hq
      rcases List.mem_append.mp hq with hq1 | hq2
      · exact hd q hq1
      · rw [List.mem_singleton.mp hq2]
        simp [tagName_setTagName]

/-- C5 witness: the amended statement at a concrete input — inserting a
nameless `TAG_Byte` under key `"k"` into an empty compound. -/
theorem c5_witness :
    tagName (Tag.byte none 1) = none ∧
      (([107], setTagName (Tag.byte none 1) (some [107])) ∈
        compoundSetItem [] [107] (Tag.byte none 1) ∧
      ∀ p ∈ compoundSetItem [] [107] (Tag.byte none 1),
        tagName p.2 = some p.1) :=
  ⟨rfl, c5_amended_setitem_coherence [] [107] (Tag.byte none 1) rfl
    (by simp)⟩

/-- C6 counterexample: constructing a `TAG_List` of kind `Int` with a
`TAG_String` element succeeds and stores the mismatched element as is —
`TAG_List.__init__` performs no kind check and raises nothing. -/
theorem c6_counterexample_no_insert_check :
    tagListInit TagKind.int (some [LElem.tag (Tag.string none [120])]) none =
      Tag.list none TagKind.int [LElem.tag (Tag.string none [120])] ∧
    tagKind (Tag.string none [120]) ≠ TagKind.int :=
  ⟨rfl, by decide⟩

/-- C6 amended: insertion into a `TAG_List` never fails and stores the
given elements unchanged (mismatched kinds are only converted later, by
`write`); and an empty list round-trips through encode and decode with
its declared element kind preserved. -/
theorem c6_amended_init_and_empty_roundtrip :
    (∀ (k : TagKind) (v : List LElem) (nm : Option Str),
      tagListInit k (some v) nm = Tag.list nm k v) ∧
    ∀ k : TagKind, encodeTag (emptyListDoc k) = some (emptyListDocBytes k) ∧
      decodeDocAux (emptyListDocBytes k) = some (emptyListDoc k, []) := by
  refine ⟨fun k v nm => rfl, fun k => ⟨?_, ?_⟩⟩
  · cases k <;>
      simp [emptyListDoc, emptyListDocBytes, encodeTag, encodePayload,
        encodeEntries, encodeElems, writeUtf8, utf8EncodeStr, utf8EncodeChar,
        packBE, natToBytesBE, tagsIndex, tagName, tagKind]
  · cases k <;> rfl

/-- C7 counterexample: a list element carrying a name is written through
its own `write`, which emits its kind-id byte and name inside the list
body: the `Int` list `[TAG_Int("x", 5)]` named `"xs"` has payload
`03 00000001 03 0001 78 00000005`, not the claimed header-plus-values
form `03 00000001 00000005`. -/
theorem c7_counterexample_named_element :
    encodePayload (Tag.list (some [120, 115]) TagKind.int
        [LElem.tag (Tag.int (some [120]) 5)]) =
      some [3, 0, 0, 0, 1, 3, 0, 1, 120, 0, 0, 0, 5] ∧
    ([3, 0, 0, 0, 1, 3, 0, 1, 120, 0, 0, 0, 5] : List Nat) ≠
      [3, 0, 0, 0, 1, 0, 0, 0, 5] := by
  constructor
  · simp [encodePayload, encodeElems, encodeTag, writeUtf8, utf8EncodeStr,
      utf8EncodeChar, packBE, natToBytesBE, tagsIndex, tagName, tagKind]
  · decide

/-- C7 amended: when every element is an unnamed tag of the declared kind
(which is what decoding produces, and what on-the-fly conversion
produces), the list payload is exactly one element-kind-id byte, the
32-bit count, and the concatenated element value payloads — no
per-element kind id or name. -/
theorem c7_amended_unnamed_elements_payload_only (nm : Option Str)
    (k : TagKind) (ts : List Tag)
    (h : ∀ t ∈ ts, tagName t = none ∧ tagKind t = k) :
    encodePayload (Tag.list nm k (ts.map LElem.tag)) = do
      let cb ← packBE 4 (ts.length : Int)
      let body ← encodePayloads ts
      return (tagsIndex k).toNat :: (cb ++ body) := by
  rw [encodePayload, packBE_one_tagsIndex, encodeElems_unnamed k ts h,
    List.length_map]
  cases packBE 4 (ts.length : Int) <;> cases encodePayloads ts <;> rfl

/-- C7 witness: the spec's own scenario — an `Int` list `[5, 6, 7]` named
`"xs"` — has body `03`, count 3, then the three 4-byte integers. -/
theorem c7_witness :
    (∀ t ∈ [Tag.int none 5, Tag.int none 6, Tag.int none 7],
      tagName t = none ∧ tagKind t = TagKind.int) ∧
    encodePayload (Tag.list (some [120, 115]) TagKind.int
        ([Tag.int none 5, Tag.int none 6, Tag.int none 7].map LElem.tag)) =
      some [3, 0, 0, 0, 3, 0, 0, 0, 5, 0, 0, 0, 6, 0, 0, 0, 7] := by
  refine ⟨by decide, ?_⟩
  rw [c7_amended_unnamed_elements_payload_only (some [120, 115]) TagKind.int
    [Tag.int none 5, Tag.int none 6, Tag.int none 7] (by decide)]
  simp [encodePayloads, encodePayload, packBE, natToBytesBE, tagsIndex]

/-- C9 (code bug): the wire kind byte `0xFF` is read as the signed value
`-1`, which Python tuple indexing maps to `_tags[-1] = TAG_Int_Array`;
the document decodes successfully instead of failing with an
unknown-kind error. -/
theorem c9_negative_kind_byte_dispatches :
    decodeDocAux [0x0A, 0, 0, 0xFF, 0, 1, 97, 0, 0, 0, 0, 0] =
      some (Tag.compound (some []) [([97], Tag.intArray (some [97]) [])], []) ∧
    tagsLookup (-1) = some (some TagKind.intArray) :=
  ⟨rfl, rfl⟩

/-- The four writer functions agree with their state-passing renderings:
whenever the state-passing write succeeds, the tree it returns is the
tree it was given — `BaseTag.write` leaves the tag tree unchanged — and
the bytes are exactly what `encodeTag` produces. -/
theorem encodeS_spec :
    (∀ (t : Tag) (r : List Nat × Tag), encodeTagS t = some r →
      r.2 = t ∧ encodeTag t = some r.1) ∧
    (∀ (t : Tag) (r : List Nat × Tag), encodePayloadS t = some r →
      r.2 = t ∧ encodePayload t = some r.1) ∧
    (∀ (es : List (Str × Tag)) (r : List Nat × List (Str × Tag)),
      encodeEntriesS es = some r → r.2 = es ∧ encodeEntries es = some r.1) ∧
    (∀ (k : TagKind) (items : List LElem) (r : List Nat × List LElem),
      encodeElemsS k items = some r →
        r.2 = items ∧ encodeElems k items = some r.1) := by
  apply encodeTagS.mutual_induct
  · intro t hnm ih r h
    rw [encodeTagS, hnm] at h
    rw [encodeTag_unnamed t hnm]
    exact ih r h
  · intro t nm hnm ih r h
    rw [encodeTagS, hnm] at h
    simp only [Option.bind_eq_bind', Option.bind_eq_some', Option.pure_def,
      Option.some.injEq] at h
    obtain ⟨kb, hkb, nb, hnb, ⟨pb, t2⟩, hpr, hr⟩ := h
    obtain ⟨ht2, hpay⟩ := ih (pb, t2) hpr
    subst hr
    refine ⟨ht2, ?_⟩
    rw [encodeTag, hnm]
    simp only [Option.bind_eq_bind', hkb, hnb, hpay, Option.some_bind,
      Option.pure_def]
  · intro nm v r h
    simp only [encodePayloadS, Option.map_eq_some'] at h
    obtain ⟨b, hb, hr⟩ := h
    subst hr
    exact ⟨rfl, by simp [encodePayload, hb]⟩
  · intro nm v r h
    simp only [encodePayloadS, Option.map_eq_some'] at h
    obtain ⟨b, hb, hr⟩ := h
    subst hr
    exact ⟨rfl, by simp [encodePayload, hb]⟩
  · intro nm v r h
    simp only [encodePayloadS, Option.map_eq_some'] at h
    obtain ⟨b, hb, hr⟩ := h
    subst hr
    exact ⟨rfl, by simp [encodePayload, hb]⟩
  · intro nm v r h
    simp only [encodePayloadS, Option.map_eq_some'] at h
    obtain ⟨b, hb, hr⟩ := h
    subst hr
    exact ⟨rfl, by simp [encodePayload, hb]⟩
  · intro nm bits hlen r h
    rw [encodePayloadS, if_pos hlen] at h
    simp only [Option.some.injEq] at h
    subst h
    exact ⟨rfl, by simp [encodePayload, hlen]⟩
  · intro nm bits hlen r h
    rw [encodePayloadS, if_neg hlen] at h
    exact absurd h (by simp)
  · intro nm bits hlen r h
    rw [encodePayloadS, if_pos hlen] at h
    simp only [Option.some.injEq] at h
    subst h
    exact ⟨rfl, by simp [encodePayload, hlen]⟩
  · intro nm bits hlen r h
    rw [encodePayloadS, if_neg hlen] at h
    exact absurd h (by simp)
  · intro nm v r h
    simp only [encodePayloadS, Option.bind_eq_bind', Option.bind_eq_some',
      Option.pure_def, Option.some.injEq] at h
    obtain ⟨lb, hlb, eb, heb, hr⟩ := h
    subst hr
    exact ⟨rfl, by simp [encodePayload, hlb, heb]⟩
  · intro nm s r h
    simp only [encodePayloadS, Option.map_eq_some'] at h
    obtain ⟨b, hb, hr⟩ := h
    subst hr
    exact ⟨rfl, by simp [encodePayload, hb]⟩
  · intro nm k items ih r h
    rw [encodePayloadS] at h
    simp only [Option.bind_eq_bind', Option.bind_eq_some', Option.pure_def,
      Option.some.injEq] at h
    obtain ⟨kb, hkb, cb, hcb, ⟨body, items2⟩, hits, hr⟩ := h
    obtain ⟨hit2, hbody⟩ := ih (body, items2) hits
    dsimp only at hit2 hbody
    subst hr
    refine ⟨by simp [hit2], ?_⟩
    rw [encodePayload]
    simp only [Option.bind_eq_bind', hkb, hcb, hbody, Option.some_bind,
      Option.pure_def]
  · intro nm entries ih r h
    rw [encodePayloadS] at h
    simp only [Option.bind_eq_bind', Option.bind_eq_some', Option.pure_def,
      Option.some.injEq] at h
    obtain ⟨⟨body, entries2⟩, hes, hr⟩ := h
    obtain ⟨hes2, hbody⟩ := ih (body, entries2) hes
    dsimp only at hes2 hbody
    subst hr
    refine ⟨by simp [hes2], ?_⟩
    rw [encodePayload]
    simp only [Option.bind_eq_bind', hbody, Option.some_bind, Option.pure_def]
  · intro nm v r h
    simp only [encodePayloadS, Option.bind_eq_bind', Option.bind_eq_some',
      Option.pure_def, Option.some.injEq] at h
    obtain ⟨lb, hlb, eb, heb, hr⟩ := h
    subst hr
    exact ⟨rfl, by simp [encodePayload, hlb, heb]⟩
  · intro r h
    rw [encodeEntriesS] at h
    simp only [Option.some.injEq] at h
    subst h
    exact ⟨rfl, by rw [encodeEntries]⟩
  · intro nm v rest ihv ihrest r h
    rw [encodeEntriesS] at h
    simp only [Option.bind_eq_bind', Option.bind_eq_some', Option.pure_def,
      Option.some.injEq] at h
    obtain ⟨⟨b, v2⟩, hv, ⟨rb, rest2⟩, hrest, hr⟩ := h
    obtain ⟨hv2, hvb⟩ := ihv (b, v2) hv
    obtain ⟨hrest2, hrestb⟩ := ihrest (rb, rest2) hrest
    dsimp only at hv2 hvb hrest2 hrestb
    subst hr
    refine ⟨by simp [hv2, hrest2], ?_⟩
    rw [encodeEntries]
    simp only [Option.bind_eq_bind', hvb, hrestb, Option.some_bind,
      Option.pure_def]
  · intro k r h
    rw [encodeElemsS] at h
    simp only [Option.some.injEq] at h
    subst h
    exact ⟨rfl, by rw [encodeElems]⟩
  · intro t rest iht ihrest r h
    rw [encodeElemsS, if_pos rfl] at h
    simp only [Option.bind_eq_bind', Option.bind_eq_some', Option.pure_def,
      Option.some.injEq] at h
    obtain ⟨⟨b, t2⟩, ht, ⟨rb, rest2⟩, hrest, hr⟩ := h
    obtain ⟨ht2, htb⟩ := iht (b, t2) ht
    obtain ⟨hrest2, hrestb⟩ := ihrest (rb, rest2) hrest
    dsimp only at ht2 htb hrest2 hrestb
    subst hr
    refine ⟨by simp [ht2, hrest2], ?_⟩
    rw [encodeElems, if_pos rfl]
    simp only [Option.bind_eq_bind', htb, hrestb, Option.some_bind,
      Option.pure_def]
  · intro k t rest hne r h
    rw [encodeElemsS, if_neg hne] at h
    exact absurd h (by simp)
  · intro k n rest ihrest r h
    rw [encodeElemsS] at h
    simp only [Option.bind_eq_bind', Option.bind_eq_some', Option.pure_def,
      Option.some.injEq] at h
    obtain ⟨b, hb, ⟨rb, rest2⟩, hrest, hr⟩ := h
    obtain ⟨hrest2, hrestb⟩ := ihrest (rb, rest2) hrest
    dsimp only at hrest2 hrestb
    subst hr
    refine ⟨by simp [hrest2], ?_⟩
    rw [encodeElems]
    simp only [Option.bind_eq_bind', hb, hrestb, Option.some_bind,
      Option.pure_def]


/-- C10: saving a document leaves the in-memory tag tree unchanged: if the
state-passing rendering of `BaseTag.write` succeeds with bytes `bs` and
post-tree `t2`, then `t2 = t` — names, values, kinds, list elements and
compound entries are all as before — and the bytes are exactly the
encoder's output; in particular list elements needing conversion are
converted only into the output bytes. -/
theorem c10_save_leaves_tree_unchanged (t : Tag) (bs : List Nat) (t2 : Tag)
    (h : encodeTagS t = some (bs, t2)) :
    t2 = t ∧ encodeTag t = some bs :=
  encodeS_spec.1 t (bs, t2) h

/-- C10 witness: documents whose list holds a raw `5` that `write` must
convert on the fly — once under a declared `Int` kind (packed as `00 00
00 05`) and once under a declared `Float` kind (converted through
`float()` to the IEEE bytes `40 A0 00 00`); both saves succeed and both
saved trees still hold the raw element unchanged. -/
theorem c10_witness :
    (encodeTagS (rawIntListDoc TagKind.int) =
        some ([10, 0, 0, 9, 0, 1, 120, 3, 0, 0, 0, 1, 0, 0, 0, 5, 0],
          rawIntListDoc TagKind.int) ∧
      encodeTag (rawIntListDoc TagKind.int) =
        some [10, 0, 0, 9, 0, 1, 120, 3, 0, 0, 0, 1, 0, 0, 0, 5, 0]) ∧
    (encodeTagS (rawIntListDoc TagKind.float) =
        some ([10, 0, 0, 9, 0, 1, 120, 5, 0, 0, 0, 1, 64, 160, 0, 0, 0],
          rawIntListDoc TagKind.float) ∧
      encodeTag (rawIntListDoc TagKind.float) =
        some [10, 0, 0, 9, 0, 1, 120, 5, 0, 0, 0, 1, 64, 160, 0, 0, 0]) := by
  have hS1 : encodeTagS (rawIntListDoc TagKind.int) =
      some ([10, 0, 0, 9, 0, 1, 120, 3, 0, 0, 0, 1, 0, 0, 0, 5, 0],
        rawIntListDoc TagKind.int) := by
    simp [rawIntListDoc, encodeTagS, encodePayloadS, encodeEntriesS,
      encodeElemsS, rawScalarWrite, writeUtf8, utf8EncodeStr, utf8EncodeChar,
      packBE, natToBytesBE, tagsIndex, tagName, tagKind]
  have hpf : packF4 5 = some [64, 160, 0, 0] := by decide
  have hS2 : encodeTagS (rawIntListDoc TagKind.float) =
      some ([10, 0, 0, 9, 0, 1, 120, 5, 0, 0, 0, 1, 64, 160, 0, 0, 0],
        rawIntListDoc TagKind.float) := by
    simp [rawIntListDoc, encodeTagS, encodePayloadS, encodeEntriesS,
      encodeElemsS, rawScalarWrite, hpf, writeUtf8, utf8EncodeStr,
      utf8EncodeChar, packBE, natToBytesBE, tagsIndex, tagName, tagKind]
  exact ⟨⟨hS1, (c10_save_leaves_tree_unchanged _ _ _ hS1).2⟩,
    ⟨hS2, (c10_save_leaves_tree_unchanged _ _ _ hS2).2⟩⟩


/-! ## Truncation machinery (C4)

The lemma families below follow the reader's structure: a suffix family
(the unread rest is a suffix of the input), a mono family (success is
preserved by extra fuel), a replay family (a parser that consumed
exactly `c` behaves the same on `c` followed by any prefix of the old
tail), and a fail family: on a strict prefix of its consumed bytes a
parser errors, or — only by way of a short string body, which
`io.read` silently truncates — returns with the entire input swallowed;
the compound reader, whose last act is reading the terminator byte,
always errors. -/

theorem readBytesExact_eq {n : Nat} {xs pre rest : List Nat}
    (h : readBytesExact n xs = some (pre, rest)) :
    xs = pre ++ rest ∧ pre.length = n := by
  unfold readBytesExact at h
  by_cases hle : n ≤ xs.length
  · rw [if_pos hle] at h
    simp only [Option.some.injEq, Prod.mk.injEq] at h
    obtain ⟨h1, h2⟩ := h
    subst h1
    subst h2
    exact ⟨(List.take_append_drop n xs).symm, by
      rw [List.length_take]
      omega⟩
  · rw [if_neg hle] at h
    exact absurd h (by simp)

theorem readBytesExact_short {n : Nat} {xs : List Nat} (h : xs.length < n) :
    readBytesExact n xs = none := by
  unfold readBytesExact
  rw [if_neg (by omega)]

theorem readBytesExact_append {n : Nat} {pre : List Nat} (z : List Nat)
    (h : pre.length = n) : readBytesExact n (pre ++ z) = some (pre, z) := by
  unfold readBytesExact
  rw [if_pos (by simp [List.length_append]; omega)]
  subst h
  rw [List.take_left, List.drop_left]

theorem readIntBE_eq {w : Nat} {xs : List Nat} {v : Int} {rest : List Nat}
    (h : readIntBE w xs = some (v, rest)) :
    ∃ pre, xs = pre ++ rest ∧ pre.length = w ∧ v = unpackBE pre := by
  unfold readIntBE at h
  simp only [Option.map_eq_some'] at h
  obtain ⟨⟨pre, rest2⟩, hb, hr⟩ := h
  obtain ⟨hxs, hlen⟩ := readBytesExact_eq hb
  simp only [Prod.mk.injEq] at hr
  exact ⟨pre, by rw [hxs, hr.2], hlen, hr.1.symm⟩

theorem readIntBE_short {w : Nat} {xs : List Nat} (h : xs.length < w) :
    readIntBE w xs = none := by
  unfold readIntBE
  rw [readBytesExact_short h]
  rfl

theorem readIntBE_append {w : Nat} {pre : List Nat} (z : List Nat)
    (h : pre.length = w) : readIntBE w (pre ++ z) = some (unpackBE pre, z) := by
  unfold readIntBE
  rw [readBytesExact_append z h]
  rfl

theorem readIntBE_nil {w : Nat} (hw : 0 < w) : readIntBE w [] = none :=
  readIntBE_short (by simpa using hw)

/-- Splitting an equation `pre ++ z0 = p1 ++ rest1` when `z0` is a suffix
of `rest1`: the middle segment of `pre` that `rest1` starts with. -/
theorem split_consumed {pre z0 p1 rest1 : List Nat}
    (he : pre ++ z0 = p1 ++ rest1) (hs : z0 <:+ rest1) :
    ∃ mid, rest1 = mid ++ z0 ∧ pre = p1 ++ mid := by
  obtain ⟨mid, hm⟩ := hs
  refine ⟨mid, hm.symm, ?_⟩
  have he2 : pre ++ z0 = (p1 ++ mid) ++ z0 := by
    rw [he, ← hm, List.append_assoc]
  exact List.append_cancel_right he2

theorem readIntsBE_suffix {w : Nat} :
    ∀ {c : Nat} {xs : List Nat} {vs : List Int} {rest : List Nat},
      readIntsBE w c xs = some (vs, rest) → rest <:+ xs := by
  intro c
  induction c with
  | zero =>
    intro xs vs rest h
    rw [readIntsBE] at h
    simp only [Option.some.injEq, Prod.mk.injEq] at h
    rw [← h.2]
  | succ m ih =>
    intro xs vs rest h
    rw [readIntsBE] at h
    simp only [Option.bind_eq_bind', Option.bind_eq_some', Option.pure_def,
      Option.some.injEq] at h
    obtain ⟨⟨v, r1⟩, hv, ⟨vs2, r2⟩, hvs, hr⟩ := h
    dsimp only at hvs hr
    rw [Prod.mk.injEq] at hr
    obtain ⟨pre, hxs, hlen, hval⟩ := readIntBE_eq hv
    have h2 := ih hvs
    rw [← hr.2, hxs]
    exact h2.trans (List.suffix_append pre r1)

theorem readIntsBE_replay {w : Nat} :
    ∀ {c : Nat} {pre z0 : List Nat} {vs : List Int} (z : List Nat),
      readIntsBE w c (pre ++ z0) = some (vs, z0) →
      readIntsBE w c (pre ++ z) = some (vs, z) := by
  intro c
  induction c with
  | zero =>
    intro pre z0 vs z h
    rw [readIntsBE] at h ⊢
    simp only [Option.some.injEq, Prod.mk.injEq] at h
    have hpre : pre = [] := by
      have := h.2
      have hlen : (pre ++ z0).length = z0.length := by rw [this]
      simp only [List.length_append] at hlen
      have : pre.length = 0 := by omega
      exact List.length_eq_zero.mp this
    subst hpre
    simp [← h.1]
  | succ m ih =>
    intro pre z0 vs z h
    rw [readIntsBE] at h ⊢
    simp only [Option.bind_eq_bind', Option.bind_eq_some', Option.pure_def,
      Option.some.injEq] at h ⊢
    obtain ⟨⟨v, r1⟩, hv, ⟨vs2, r2⟩, hvs, hr⟩ := h
    dsimp only at hvs hr
    rw [Prod.mk.injEq] at hr
    obtain ⟨p1, hxs, hlen, hval⟩ := readIntBE_eq hv
    have hsuf : z0 <:+ r1 := by
      have h2 := readIntsBE_suffix hvs
      rw [hr.2] at h2
      exact h2
    obtain ⟨mid, hr1, hpre⟩ := split_consumed hxs hsuf
    subst hpre
    rw [hr1] at hvs
    rw [hr.2] at hvs
    refine ⟨(v, mid ++ z), ?_, ⟨vs2, z⟩, ?_, ?_⟩
    · rw [hval, List.append_assoc]
      exact readIntBE_append (mid ++ z) hlen
    · exact ih z hvs
    · simp [← hr.1]

theorem readIntsBE_fail {w : Nat} :
    ∀ {c : Nat} {pre r : List Nat} {vs : List Int} {n : Nat},
      readIntsBE w c (pre ++ r) = some (vs, r) → n < pre.length →
      readIntsBE w c (pre.take n) = none := by
  intro c
  induction c with
  | zero =>
    intro pre r vs n h hn
    rw [readIntsBE] at h
    simp only [Option.some.injEq, Prod.mk.injEq] at h
    have : pre.length = 0 := by
      have hlen : (pre ++ r).length = r.length := by rw [h.2]
      simp only [List.length_append] at hlen
      omega
    omega
  | succ m ih =>
    intro pre r vs n h hn
    rw [readIntsBE] at h
    simp only [Option.bind_eq_bind', Option.bind_eq_some', Option.pure_def,
      Option.some.injEq] at h
    obtain ⟨⟨v, r1⟩, hv, ⟨vs2, r2⟩, hvs, hr⟩ := h
    dsimp only at hvs hr
    rw [Prod.mk.injEq] at hr
    obtain ⟨p1, hxs, hlen, hval⟩ := readIntBE_eq hv
    have hsuf : r <:+ r1 := by
      have h2 := readIntsBE_suffix hvs
      rw [hr.2] at h2
      exact h2
    obtain ⟨mid, hr1, hpre⟩ := split_consumed hxs hsuf
    subst hpre
    rw [readIntsBE]
    simp only [Option.bind_eq_bind', Option.bind_eq_some']
    by_cases hcase : n < w
    · rw [readIntBE_short (by
        rw [List.length_take]
        omega)]
      simp
    · have htake : (p1 ++ mid).take n = p1 ++ mid.take (n - p1.length) := by
        rw [List.take_append_eq_append_take,
          List.take_of_length_le (by omega)]
      rw [htake, readIntBE_append _ hlen]
      rw [hr1, hr.2] at hvs
      have hmid : n - p1.length < mid.length := by
        rw [List.length_append] at hn
        omega
      simp only [Option.some_bind]
      rw [ih hvs hmid]
      rfl


theorem readUtf8_nil : readUtf8 [] = none := rfl

theorem readUtf8_suffix {xs : List Nat} {s : Str} {rest : List Nat}
    (h : readUtf8 xs = some (s, rest)) : rest <:+ xs := by
  unfold readUtf8 at h
  simp only [Option.bind_eq_bind', Option.bind_eq_some', Option.pure_def,
    Option.some.injEq] at h
  obtain ⟨⟨len, r⟩, hread, s2, hdec, hr⟩ := h
  dsimp only at hdec hr
  rw [Prod.mk.injEq] at hr
  obtain ⟨p2, hxs, hlen2, hval⟩ := readIntBE_eq hread
  rw [← hr.2]
  by_cases hneg : len < 0
  · rw [if_pos hneg]
    exact List.nil_suffix
  · rw [if_neg hneg, hxs]
    exact (List.drop_suffix _ _).trans (List.suffix_append _ _)

theorem readUtf8_replay {c z0 : List Nat} {s : Str} (z : List Nat)
    (h : readUtf8 (c ++ z0) = some (s, z0)) (hz : z <+: z0) :
    readUtf8 (c ++ z) = some (s, z) := by
  unfold readUtf8 at h ⊢
  simp only [Option.bind_eq_bind', Option.bind_eq_some', Option.pure_def,
    Option.some.injEq] at h ⊢
  obtain ⟨⟨len, r1⟩, hread, s2, hdec, hr⟩ := h
  dsimp only at hdec hr
  rw [Prod.mk.injEq] at hr
  obtain ⟨p2, hxs, hlen2, hval⟩ := readIntBE_eq hread
  by_cases hneg : len < 0
  · rw [if_pos hneg] at hdec hr
    have hz0 : z0 = [] := hr.2.symm
    have hzz : z = [] := List.prefix_nil.mp (hz0 ▸ hz)
    subst hz0
    subst hzz
    exact ⟨(len, r1), hread, s2, by rw [if_pos hneg]; exact hdec,
      by rw [if_pos hneg, Prod.mk.injEq]; exact ⟨hr.1, rfl⟩⟩
  · rw [if_neg hneg] at hdec hr
    have hsplit : r1 = r1.take len.toNat ++ z0 := by
      rw [← hr.2]
      exact (List.take_append_drop _ _).symm
    have hc : c = p2 ++ r1.take len.toNat := by
      have he2 : c ++ z0 = (p2 ++ r1.take len.toNat) ++ z0 := by
        rw [List.append_assoc, ← hsplit]
        exact hxs
      exact List.append_cancel_right he2
    have hble : (r1.take len.toNat).length ≤ len.toNat := by
      rw [List.length_take]
      omega
    have htake2 : (r1.take len.toNat ++ z).take len.toNat = r1.take len.toNat := by
      by_cases hm : len.toNat ≤ r1.length
      · have hlb : (r1.take len.toNat).length = len.toNat := by
          rw [List.length_take]
          omega
        exact List.take_left' hlb
      · have hz0nil : z0 = [] := by
          rw [← hr.2]
          exact List.drop_eq_nil_of_le (by omega)
        have hzz : z = [] := List.prefix_nil.mp (hz0nil ▸ hz)
        subst hzz
        rw [List.append_nil]
        rw [List.take_take]
        congr 1
        omega
    have hdrop2 : (r1.take len.toNat ++ z).drop len.toNat = z := by
      by_cases hm : len.toNat ≤ r1.length
      · have hlb : (r1.take len.toNat).length = len.toNat := by
          rw [List.length_take]
          omega
        exact List.drop_left' hlb
      · have hz0nil : z0 = [] := by
          rw [← hr.2]
          exact List.drop_eq_nil_of_le (by omega)
        have hzz : z = [] := List.prefix_nil.mp (hz0nil ▸ hz)
        subst hzz
        rw [List.append_nil]
        exact List.drop_eq_nil_of_le hble
    refine ⟨(len, r1.take len.toNat ++ z), ?_, s2, ?_, ?_⟩
    · rw [hc, List.append_assoc, hval]
      exact readIntBE_append _ hlen2
    · dsimp only
      rw [if_neg hneg, htake2]
      exact hdec
    · dsimp only
      rw [if_neg hneg, Prod.mk.injEq, hdrop2]
      exact ⟨hr.1, rfl⟩

theorem readUtf8_fail {c r : List Nat} {s : Str} {n : Nat}
    (h : readUtf8 (c ++ r) = some (s, r)) (hn : n < c.length) :
    readUtf8 (c.take n) = none ∨ ∃ s2, readUtf8 (c.take n) = some (s2, []) := by
  unfold readUtf8 at h
  simp only [Option.bind_eq_bind', Option.bind_eq_some', Option.pure_def,
    Option.some.injEq] at h
  obtain ⟨⟨len, r1⟩, hread, s2, hdec, hr⟩ := h
  dsimp only at hdec hr
  rw [Prod.mk.injEq] at hr
  obtain ⟨p2, hxs, hlen2, hval⟩ := readIntBE_eq hread
  by_cases hsmall : n < 2
  · left
    unfold readUtf8
    rw [readIntBE_short (by
      rw [List.length_take]
      omega)]
    rfl
  · by_cases hneg : len < 0
    · rw [if_pos hneg] at hdec hr
      have hrnil : r = [] := hr.2.symm
      subst hrnil
      rw [List.append_nil] at hxs
      have htaken : c.take n = p2 ++ r1.take (n - 2) := by
        rw [hxs, List.take_append_eq_append_take,
          List.take_of_length_le (by omega)]
        congr 2
        omega
      have hrun : readUtf8 (c.take n) =
          (utf8Decode (r1.take (n - 2))).map (fun s3 => (s3, [])) := by
        unfold readUtf8
        rw [htaken, readIntBE_append _ hlen2, ← hval]
        simp only [Option.bind_eq_bind', Option.some_bind, if_pos hneg]
        cases utf8Decode (r1.take (n - 2)) <;> rfl
      cases hdec2 : utf8Decode (r1.take (n - 2)) with
      | none =>
        left
        rw [hrun, hdec2]
        rfl
      | some s3 =>
        right
        exact ⟨s3, by rw [hrun, hdec2]; rfl⟩
    · rw [if_neg hneg] at hdec hr
      have hsplit : r1 = r1.take len.toNat ++ r := by
        rw [← hr.2]
        exact (List.take_append_drop _ _).symm
      have hc : c = p2 ++ r1.take len.toNat := by
        have he2 : c ++ r = (p2 ++ r1.take len.toNat) ++ r := by
          rw [List.append_assoc, ← hsplit]
          exact hxs
        exact List.append_cancel_right he2
      have hblen : (r1.take len.toNat).length ≤ len.toNat := by
        rw [List.length_take]
        omega
      have hnb : n - 2 < (r1.take len.toNat).length := by
        have : c.length = 2 + (r1.take len.toNat).length := by
          rw [hc, List.length_append, hlen2]
        omega
      have htaken : c.take n = p2 ++ (r1.take len.toNat).take (n - 2) := by
        rw [hc, List.take_append_eq_append_take,
          List.take_of_length_le (by omega)]
        congr 2
        omega
      have hbody2 : ((r1.take len.toNat).take (n - 2)).take len.toNat =
          (r1.take len.toNat).take (n - 2) := by
        apply List.take_of_length_le
        rw [List.length_take, List.length_take]
        omega
      have hrest2 : ((r1.take len.toNat).take (n - 2)).drop len.toNat = [] := by
        apply List.drop_eq_nil_of_le
        rw [List.length_take, List.length_take]
        omega
      have hrun : readUtf8 (c.take n) =
          (utf8Decode ((r1.take len.toNat).take (n - 2))).map
            (fun s3 => (s3, [])) := by
        unfold readUtf8
        rw [htaken, readIntBE_append _ hlen2, ← hval]
        simp only [Option.bind_eq_bind', Option.some_bind, if_neg hneg, hbody2,
          hrest2]
        cases utf8Decode ((r1.take len.toNat).take (n - 2)) <;> rfl
      cases hdec2 : utf8Decode ((r1.take len.toNat).take (n - 2)) with
      | none =>
        left
        rw [hrun, hdec2]
        rfl
      | some s3 =>
        right
        exact ⟨s3, by rw [hrun, hdec2]; rfl⟩


theorem readCompoundBody_nil (f : Nat) (acc : List (Str × Tag)) :
    readCompoundBody f acc [] = none := by
  cases f with
  | zero => rfl
  | succ m =>
    simp [readCompoundBody, show readIntBE 1 [] = none from rfl]

theorem readTag_false_nil (f : Nat) (k : TagKind) :
    readTag f k false [] = none := by
  cases f with
  | zero => rfl
  | succ m =>
    cases k <;>
      simp [readTag, readCompoundBody_nil, readUtf8_nil,
        show readIntBE 1 [] = none from rfl,
        show readIntBE 2 [] = none from rfl,
        show readIntBE 4 [] = none from rfl,
        show readIntBE 8 [] = none from rfl,
        show readBytesExact 4 [] = none from rfl,
        show readBytesExact 8 [] = none from rfl]

theorem readElems_nil (f : Nat) (k : TagKind) (c : Nat) :
    readElems f k c [] = none ∨ readElems f k c [] = some ([], []) := by
  cases c with
  | zero =>
    right
    cases f <;> rfl
  | succ m =>
    left
    cases f with
    | zero => rfl
    | succ f2 =>
      simp [readElems, readTag_false_nil]

/-- The name phase of `readTag`: the remaining input is a suffix. -/
theorem readName_suffix {hn : Bool} {xs : List Nat} {nm : Option Str}
    {xs1 : List Nat}
    (h : (if hn then (readUtf8 xs).map (fun p => (some p.1, p.2))
      else some (none, xs)) = some (nm, xs1)) : xs1 <:+ xs := by
  cases hn
  · simp only [Bool.false_eq_true, if_false, Option.some.injEq,
      Prod.mk.injEq] at h
    rw [← h.2]
  · simp only [if_true, Option.map_eq_some'] at h
    obtain ⟨⟨s, r⟩, hread, hp⟩ := h
    rw [Prod.mk.injEq] at hp
    rw [← hp.2]
    exact readUtf8_suffix hread

/-- Reading a named tag is reading the name, then reading the same tag
unnamed and storing the name into it.  This lets every lemma below treat
the name phase uniformly. -/
theorem readTag_true_eq (f : Nat) (k : TagKind) (xs : List Nat) :
    readTag f k true xs =
      (readUtf8 xs).bind (fun p =>
        (readTag f k false p.2).map
          (fun q => (setTagName q.1 (some p.1), q.2))) := by
  cases f with
  | zero => cases hread : readUtf8 xs <;> rfl
  | succ m =>
    cases hread : readUtf8 xs with
    | none =>
      rw [readTag.eq_def]
      simp [hread]
    | some p =>
      obtain ⟨s, xs1⟩ := p
      simp only [Option.some_bind]
      rw [readTag.eq_def]
      conv_rhs => rw [readTag.eq_def]
      simp only [hread, if_true, Option.map_some', Option.some_bind,
        Option.bind_eq_bind']
      cases k <;> simp [Option.map_bind, apply_ite, setTagName]

/-- Suffix family: the unread rest a reader returns is a suffix of its
input. -/
theorem reader_suffix (f : Nat) :
    (∀ (k : TagKind) (xs : List Nat) (t : Tag) (rest : List Nat),
      readTag f k false xs = some (t, rest) → rest <:+ xs) ∧
    (∀ (acc : List (Str × Tag)) (xs : List Nat) (es : List (Str × Tag))
      (rest : List Nat),
      readCompoundBody f acc xs = some (es, rest) → rest <:+ xs) ∧
    (∀ (k : TagKind) (c : Nat) (xs : List Nat) (ts : List Tag)
      (rest : List Nat),
      readElems f k c xs = some (ts, rest) → rest <:+ xs) := by
  induction f with
  | zero =>
    refine ⟨?_, ?_, ?_⟩
    · intro k xs t rest h
      exact absurd h (by simp [readTag])
    · intro acc xs es rest h
      exact absurd h (by simp [readCompoundBody])
    · intro k c xs ts rest h
      cases c with
      | zero =>
        rw [readElems] at h
        simp only [Option.some.injEq, Prod.mk.injEq] at h
        rw [← h.2]
      | succ m => exact absurd h (by simp [readElems])
  | succ m ih =>
    obtain ⟨ihTag, ihBody, ihElems⟩ := ih
    have ihTagT : ∀ (k : TagKind) (xs : List Nat) (t : Tag) (rest : List Nat),
        readTag m k true xs = some (t, rest) → rest <:+ xs := by
      intro k xs t rest h
      rw [readTag_true_eq] at h
      simp only [Option.bind_eq_bind', Option.bind_eq_some',
        Option.map_eq_some'] at h
      obtain ⟨⟨s, xs1⟩, hname, ⟨q, r2⟩, hq, hqr⟩ := h
      rw [Prod.mk.injEq] at hqr
      dsimp only at hqr
      rw [← hqr.2]
      exact (ihTag _ _ _ _ hq).trans (readUtf8_suffix hname)
    refine ⟨?_, ?_, ?_⟩
    · intro k xs t rest h
      rw [readTag.eq_def] at h
      cases k <;>
        simp only [Bool.false_eq_true, if_false, Option.some_bind,
          Option.bind_eq_bind', Option.bind_eq_some', Option.pure_def,
          Option.some.injEq] at h
      case byte =>
        obtain ⟨⟨v, r⟩, hv, hp⟩ := h
        rw [Prod.mk.injEq] at hp
        rw [← hp.2]
        obtain ⟨pre, he, _, _⟩ := readIntBE_eq hv
        rw [he]
        exact List.suffix_append _ _
      case short =>
        obtain ⟨⟨v, r⟩, hv, hp⟩ := h
        rw [Prod.mk.injEq] at hp
        rw [← hp.2]
        obtain ⟨pre, he, _, _⟩ := readIntBE_eq hv
        rw [he]
        exact List.suffix_append _ _
      case int =>
        obtain ⟨⟨v, r⟩, hv, hp⟩ := h
        rw [Prod.mk.injEq] at hp
        rw [← hp.2]
        obtain ⟨pre, he, _, _⟩ := readIntBE_eq hv
        rw [he]
        exact List.suffix_append _ _
      case long =>
        obtain ⟨⟨v, r⟩, hv, hp⟩ := h
        rw [Prod.mk.injEq] at hp
        rw [← hp.2]
        obtain ⟨pre, he, _, _⟩ := readIntBE_eq hv
        rw [he]
        exact List.suffix_append _ _
      case float =>
        obtain ⟨⟨v, r⟩, hv, hp⟩ := h
        rw [Prod.mk.injEq] at hp
        rw [← hp.2]
        obtain ⟨he, _⟩ := readBytesExact_eq hv
        rw [he]
        exact List.suffix_append _ _
      case double =>
        obtain ⟨⟨v, r⟩, hv, hp⟩ := h
        rw [Prod.mk.injEq] at hp
        rw [← hp.2]
        obtain ⟨he, _⟩ := readBytesExact_eq hv
        rw [he]
        exact List.suffix_append _ _
      case string =>
        obtain ⟨⟨s, r⟩, hv, hp⟩ := h
        rw [Prod.mk.injEq] at hp
        rw [← hp.2]
        exact readUtf8_suffix hv
      case byteArray =>
        obtain ⟨⟨nlen, r1⟩, hv, hp⟩ := h
        dsimp only at hp
        by_cases hneg : nlen < 0
        · rw [if_pos hneg] at hp
          exact absurd hp (by simp)
        · rw [if_neg hneg] at hp
          simp only [Option.bind_eq_bind', Option.bind_eq_some',
            Option.pure_def, Option.some.injEq] at hp
          obtain ⟨⟨vs, r2⟩, hvs, hp2⟩ := hp
          rw [Prod.mk.injEq] at hp2
          rw [← hp2.2]
          obtain ⟨pre, he, _, _⟩ := readIntBE_eq hv
          rw [he]
          exact (readIntsBE_suffix hvs).trans (List.suffix_append _ _)
      case intArray =>
        obtain ⟨⟨nlen, r1⟩, hv, hp⟩ := h
        dsimp only at hp
        by_cases hneg : nlen < 0
        · rw [if_pos hneg] at hp
          exact absurd hp (by simp)
        · rw [if_neg hneg] at hp
          simp only [Option.bind_eq_bind', Option.bind_eq_some',
            Option.pure_def, Option.some.injEq] at hp
          obtain ⟨⟨vs, r2⟩, hvs, hp2⟩ := hp
          rw [Prod.mk.injEq] at hp2
          rw [← hp2.2]
          obtain ⟨pre, he, _, _⟩ := readIntBE_eq hv
          rw [he]
          exact (readIntsBE_suffix hvs).trans (List.suffix_append _ _)
      case list =>
        obtain ⟨⟨tv, r1⟩, hv, ⟨cnt, r2⟩, hcnt, cls, hcls, ek, hek, ⟨its, r3⟩,
          hits, hp⟩ := h
        dsimp only at hcnt hcls hits hp
        rw [Prod.mk.injEq] at hp
        rw [← hp.2]
        obtain ⟨pre1, he1, _, _⟩ := readIntBE_eq hv
        obtain ⟨pre2, he2, _, _⟩ := readIntBE_eq hcnt
        have h3 := ihElems _ _ _ _ _ hits
        rw [he1, he2]
        exact ((h3.trans (List.suffix_append _ _)).trans
          (List.suffix_append _ _))
      case compound =>
        obtain ⟨⟨es, r⟩, hb, hp⟩ := h
        rw [Prod.mk.injEq] at hp
        rw [← hp.2]
        exact ihBody _ _ _ _ hb
    · intro acc xs es rest h
      rw [readCompoundBody] at h
      simp only [Option.bind_eq_bind', Option.bind_eq_some'] at h
      obtain ⟨⟨tagId, r1⟩, hid, h2⟩ := h
      obtain ⟨pre, he, _, _⟩ := readIntBE_eq hid
      dsimp only at h2
      by_cases htag : tagId = 0
      · rw [if_pos htag] at h2
        simp only [Option.some.injEq, Prod.mk.injEq] at h2
        rw [← h2.2, he]
        exact List.suffix_append _ _
      · rw [if_neg htag] at h2
        simp only [Option.bind_eq_bind', Option.bind_eq_some'] at h2
        obtain ⟨cls, hcls, k, hk, ⟨t, r2⟩, ht, hrec⟩ := h2
        have hs1 := ihTagT _ _ _ _ ht
        have hs2 := ihBody _ _ _ _ hrec
        rw [he]
        exact ((hs2.trans hs1).trans (List.suffix_append _ _))
    · intro k c xs ts rest h
      cases c with
      | zero =>
        rw [readElems] at h
        simp only [Option.some.injEq, Prod.mk.injEq] at h
        rw [← h.2]
      | succ c2 =>
        rw [readElems] at h
        simp only [Option.bind_eq_bind', Option.bind_eq_some',
          Option.pure_def, Option.some.injEq] at h
        obtain ⟨⟨t, r1⟩, ht, ⟨ts2, r2⟩, hts, hp⟩ := h
        rw [Prod.mk.injEq] at hp
        rw [← hp.2]
        exact (ihElems _ _ _ _ _ hts).trans (ihTag _ _ _ _ ht)

/-- Suffix for named tags, in the form the top level uses. -/
theorem readTag_suffix {f : Nat} {k : TagKind} {hn : Bool} {xs : List Nat}
    {t : Tag} {rest : List Nat} (h : readTag f k hn xs = some (t, rest)) :
    rest <:+ xs := by
  cases hn
  · exact (reader_suffix f).1 _ _ _ _ h
  · rw [readTag_true_eq] at h
    simp only [Option.bind_eq_bind', Option.bind_eq_some',
      Option.map_eq_some'] at h
    obtain ⟨⟨s, xs1⟩, hname, ⟨q, r2⟩, hq, hqr⟩ := h
    rw [Prod.mk.injEq] at hqr
    dsimp only at hqr
    rw [← hqr.2]
    exact ((reader_suffix f).1 _ _ _ _ hq).trans (readUtf8_suffix hname)


/-- Fuel monotonicity family: success at some fuel is success at one more. -/
theorem reader_mono (f : Nat) :
    (∀ (k : TagKind) (xs : List Nat) (r : Tag × List Nat),
      readTag f k false xs = some r → readTag (f + 1) k false xs = some r) ∧
    (∀ (acc : List (Str × Tag)) (xs : List Nat)
      (r : List (Str × Tag) × List Nat),
      readCompoundBody f acc xs = some r →
        readCompoundBody (f + 1) acc xs = some r) ∧
    (∀ (k : TagKind) (c : Nat) (xs : List Nat) (r : List Tag × List Nat),
      readElems f k c xs = some r → readElems (f + 1) k c xs = some r) := by
  induction f with
  | zero =>
    refine ⟨?_, ?_, ?_⟩
    · intro k xs r h
      exact absurd h (by simp [readTag])
    · intro acc xs r h
      exact absurd h (by simp [readCompoundBody])
    · intro k c xs r h
      cases c with
      | zero =>
        rw [readElems] at h ⊢
        exact h
      | succ m => exact absurd h (by simp [readElems])
  | succ m ih =>
    obtain ⟨ihTag, ihBody, ihElems⟩ := ih
    have ihTagT : ∀ (k : TagKind) (xs : List Nat) (r : Tag × List Nat),
        readTag m k true xs = some r → readTag (m + 1) k true xs = some r := by
      intro k xs r h
      rw [readTag_true_eq] at h ⊢
      simp only [Option.bind_eq_bind', Option.bind_eq_some',
        Option.map_eq_some'] at h ⊢
      obtain ⟨p, hname, q, hq, hqr⟩ := h
      exact ⟨p, hname, q, ihTag _ _ _ hq, hqr⟩
    refine ⟨?_, ?_, ?_⟩
    · intro k xs r h
      rw [readTag.eq_def] at h
      rw [readTag.eq_def]
      cases k <;>
        simp only [Bool.false_eq_true, if_false, Option.some_bind,
          Option.bind_eq_bind', Option.bind_eq_some', Option.pure_def] at h ⊢
      case byte => exact h
      case short => exact h
      case int => exact h
      case long => exact h
      case float => exact h
      case double => exact h
      case string => exact h
      case byteArray => exact h
      case intArray => exact h
      case list =>
        obtain ⟨d1, hv, d2, hcnt, cls, hcls, ek, hek, d3, hits, hp⟩ := h
        exact ⟨d1, hv, d2, hcnt, cls, hcls, ek, hek, d3,
          ihElems _ _ _ _ hits, hp⟩
      case compound =>
        obtain ⟨d, hb, hp⟩ := h
        exact ⟨d, ihBody _ _ _ hb, hp⟩
    · intro acc xs r h
      rw [readCompoundBody] at h
      rw [readCompoundBody]
      simp only [Option.bind_eq_bind', Option.bind_eq_some'] at h ⊢
      obtain ⟨⟨tagId, r1⟩, hid, h2⟩ := h
      refine ⟨(tagId, r1), hid, ?_⟩
      dsimp only at h2 ⊢
      by_cases htag : tagId = 0
      · rw [if_pos htag] at h2 ⊢
        exact h2
      · rw [if_neg htag] at h2 ⊢
        simp only [Option.bind_eq_bind', Option.bind_eq_some'] at h2 ⊢
        obtain ⟨cls, hcls, k, hk, d, ht, hrec⟩ := h2
        exact ⟨cls, hcls, k, hk, d, ihTagT _ _ _ ht, ihBody _ _ _ hrec⟩
    · intro k c xs r h
      cases c with
      | zero =>
        rw [readElems] at h ⊢
        exact h
      | succ c2 =>
        rw [readElems] at h
        rw [readElems]
        simp only [Option.bind_eq_bind', Option.bind_eq_some',
          Option.pure_def] at h ⊢
        obtain ⟨d1, ht, d2, hts, hp⟩ := h
        exact ⟨d1, ihTag _ _ _ ht, d2, ihElems _ _ _ _ hts, hp⟩

/-- Fuel monotonicity, in the ≤ form used at the top level. -/
theorem readTag_mono_le {f g : Nat} (hfg : f ≤ g) {k : TagKind} {hn : Bool}
    {xs : List Nat} {r : Tag × List Nat} (h : readTag f k hn xs = some r) :
    readTag g k hn xs = some r := by
  induction g with
  | zero =>
    have hf0 : f = 0 := Nat.le_zero.mp hfg
    subst hf0
    exact h
  | succ m ih =>
    by_cases hle : f ≤ m
    · have h2 := ih hle
      cases hn
      · exact (reader_mono m).1 _ _ _ h2
      · rw [readTag_true_eq] at h2 ⊢
        simp only [Option.bind_eq_bind', Option.bind_eq_some',
          Option.map_eq_some'] at h2 ⊢
        obtain ⟨p, hname, q, hq, hqr⟩ := h2
        exact ⟨p, hname, q, (reader_mono m).1 _ _ _ hq, hqr⟩
    · have hfe : f = m + 1 := by omega
      subst hfe
      exact h


theorem prefix_append_left (mid : List Nat) {z z0 : List Nat}
    (h : z <+: z0) : mid ++ z <+: mid ++ z0 := by
  obtain ⟨t, ht⟩ := h
  exact ⟨t, by rw [List.append_assoc, ht]⟩

/-- Replay family: a reader that consumed exactly `c` returns the same
value on `c` followed by any prefix of the old tail, leaving exactly
that new tail. -/
theorem reader_replay (f : Nat) :
    (∀ (k : TagKind) (c z0 : List Nat) (v : Tag) (z : List Nat),
      readTag f k false (c ++ z0) = some (v, z0) → z <+: z0 →
        readTag f k false (c ++ z) = some (v, z)) ∧
    (∀ (acc : List (Str × Tag)) (c z0 : List Nat) (es : List (Str × Tag))
      (z : List Nat),
      readCompoundBody f acc (c ++ z0) = some (es, z0) → z <+: z0 →
        readCompoundBody f acc (c ++ z) = some (es, z)) ∧
    (∀ (k : TagKind) (cnt : Nat) (c z0 : List Nat) (ts : List Tag)
      (z : List Nat),
      readElems f k cnt (c ++ z0) = some (ts, z0) → z <+: z0 →
        readElems f k cnt (c ++ z) = some (ts, z)) := by
  induction f with
  | zero =>
    refine ⟨?_, ?_, ?_⟩
    · intro k c z0 v z h hz
      exact absurd h (by simp [readTag])
    · intro acc c z0 es z h hz
      exact absurd h (by simp [readCompoundBody])
    · intro k cnt c z0 ts z h hz
      cases cnt with
      | zero =>
        rw [readElems] at h ⊢
        simp only [Option.some.injEq, Prod.mk.injEq] at h ⊢
        have hc : c = [] := by
          have hlen : (c ++ z0).length = z0.length := by rw [h.2]
          simp only [List.length_append] at hlen
          exact List.length_eq_zero.mp (by omega)
        subst hc
        exact ⟨h.1, rfl⟩
      | succ m => exact absurd h (by simp [readElems])
  | succ m ih =>
    obtain ⟨ihTag, ihBody, ihElems⟩ := ih
    have ihTagT : ∀ (k : TagKind) (c z0 : List Nat) (v : Tag) (z : List Nat),
        readTag m k true (c ++ z0) = some (v, z0) → z <+: z0 →
          readTag m k true (c ++ z) = some (v, z) := by
      intro k c z0 v z h hz
      rw [readTag_true_eq] at h ⊢
      simp only [Option.bind_eq_bind', Option.bind_eq_some',
        Option.map_eq_some'] at h ⊢
      obtain ⟨⟨s, xs1⟩, hname, ⟨q, r2⟩, hq, hqr⟩ := h
      dsimp only at hq hqr
      rw [Prod.mk.injEq] at hqr
      have hr2 : r2 = z0 := hqr.2
      subst hr2
      have hsub : r2 <:+ xs1 := readTag_suffix hq
      obtain ⟨p, hp⟩ := readUtf8_suffix hname
      obtain ⟨mid, hxs1, hc⟩ := split_consumed hp.symm hsub
      subst hc
      rw [hxs1] at hname hq
      have hname2 := readUtf8_replay (mid ++ z)
        (by rw [← List.append_assoc]; exact hname)
        (prefix_append_left mid hz)
      have hq2 := ihTag _ _ _ _ _ hq hz
      refine ⟨(s, mid ++ z), ?_, (q, z), hq2, ?_⟩
      · rw [List.append_assoc]
        exact hname2
      · simp [hqr.1]
    refine ⟨?_, ?_, ?_⟩
    · intro k c z0 v z h hz
      rw [readTag.eq_def] at h
      rw [readTag.eq_def]
      cases k <;>
        simp only [Bool.false_eq_true, if_false, Option.some_bind,
          Option.bind_eq_bind', Option.bind_eq_some', Option.pure_def,
          Option.some.injEq] at h ⊢
      case byte =>
        obtain ⟨⟨v0, r⟩, hv, hp⟩ := h
        rw [Prod.mk.injEq] at hp
        dsimp only at hp
        obtain ⟨pre, he, hlen, hval⟩ := readIntBE_eq hv
        rw [hp.2] at he
        have hc : c = pre := List.append_cancel_right he
        subst hc
        exact ⟨(v0, z), by rw [hval]; exact readIntBE_append z hlen,
          by rw [Prod.mk.injEq]; exact ⟨hp.1, rfl⟩⟩
      case short =>
        obtain ⟨⟨v0, r⟩, hv, hp⟩ := h
        rw [Prod.mk.injEq] at hp
        dsimp only at hp
        obtain ⟨pre, he, hlen, hval⟩ := readIntBE_eq hv
        rw [hp.2] at he
        have hc : c = pre := List.append_cancel_right he
        subst hc
        exact ⟨(v0, z), by rw [hval]; exact readIntBE_append z hlen,
          by rw [Prod.mk.injEq]; exact ⟨hp.1, rfl⟩⟩
      case int =>
        obtain ⟨⟨v0, r⟩, hv, hp⟩ := h
        rw [Prod.mk.injEq] at hp
        dsimp only at hp
        obtain ⟨pre, he, hlen, hval⟩ := readIntBE_eq hv
        rw [hp.2] at he
        have hc : c = pre := List.append_cancel_right he
        subst hc
        exact ⟨(v0, z), by rw [hval]; exact readIntBE_append z hlen,
          by rw [Prod.mk.injEq]; exact ⟨hp.1, rfl⟩⟩
      case long =>
        obtain ⟨⟨v0, r⟩, hv, hp⟩ := h
        rw [Prod.mk.injEq] at hp
        dsimp only at hp
        obtain ⟨pre, he, hlen, hval⟩ := readIntBE_eq hv
        rw [hp.2] at he
        have hc : c = pre := List.append_cancel_right he
        subst hc
        exact ⟨(v0, z), by rw [hval]; exact readIntBE_append z hlen,
          by rw [Prod.mk.injEq]; exact ⟨hp.1, rfl⟩⟩
      case float =>
        obtain ⟨⟨b0, r⟩, hv, hp⟩ := h
        rw [Prod.mk.injEq] at hp
        dsimp only at hp
        obtain ⟨he, hlen⟩ := readBytesExact_eq hv
        rw [hp.2] at he
        have hc : c = b0 := List.append_cancel_right he
        subst hc
        exact ⟨(c, z), readBytesExact_append z hlen,
          by rw [Prod.mk.injEq]; exact ⟨hp.1, rfl⟩⟩
      case double =>
        obtain ⟨⟨b0, r⟩, hv, hp⟩ := h
        rw [Prod.mk.injEq] at hp
        dsimp only at hp
        obtain ⟨he, hlen⟩ := readBytesExact_eq hv
        rw [hp.2] at he
        have hc : c = b0 := List.append_cancel_right he
        subst hc
        exact ⟨(c, z), readBytesExact_append z hlen,
          by rw [Prod.mk.injEq]; exact ⟨hp.1, rfl⟩⟩
      case string =>
        obtain ⟨⟨s0, r⟩, hv, hp⟩ := h
        rw [Prod.mk.injEq] at hp
        dsimp only at hp
        rw [hp.2] at hv
        exact ⟨(s0, z), readUtf8_replay z hv hz,
          by rw [Prod.mk.injEq]; exact ⟨hp.1, rfl⟩⟩
      case byteArray =>
        obtain ⟨⟨nlen, r1⟩, hv, hp⟩ := h
        dsimp only at hp
        by_cases hneg : nlen < 0
        · rw [if_pos hneg] at hp
          exact absurd hp (by simp)
        · rw [if_neg hneg] at hp
          simp only [Option.bind_eq_bind', Option.bind_eq_some',
            Option.pure_def, Option.some.injEq] at hp
          obtain ⟨⟨vs, r2⟩, hvs, hp2⟩ := hp
          dsimp only at hvs hp2
          rw [Prod.mk.injEq] at hp2
          have hr2 : r2 = z0 := hp2.2
          subst hr2
          obtain ⟨pre, he, hlen, hval⟩ := readIntBE_eq hv
          have hsub : r2 <:+ r1 := readIntsBE_suffix hvs
          obtain ⟨mid, hr1, hc⟩ := split_consumed he hsub
          subst hc
          rw [hr1] at hvs
          refine ⟨(nlen, mid ++ z), ?_, ?_⟩
          · rw [hval, List.append_assoc]
            exact readIntBE_append _ hlen
          · rw [if_neg hneg]
            simp only [Option.bind_eq_bind', Option.bind_eq_some',
              Option.pure_def, Option.some.injEq]
            exact ⟨(vs, z), readIntsBE_replay z hvs,
              by rw [Prod.mk.injEq]; exact ⟨hp2.1, rfl⟩⟩
      case intArray =>
        obtain ⟨⟨nlen, r1⟩, hv, hp⟩ := h
        dsimp only at hp
        by_cases hneg : nlen < 0
        · rw [if_pos hneg] at hp
          exact absurd hp (by simp)
        · rw [if_neg hneg] at hp
          simp only [Option.bind_eq_bind', Option.bind_eq_some',
            Option.pure_def, Option.some.injEq] at hp
          obtain ⟨⟨vs, r2⟩, hvs, hp2⟩ := hp
          dsimp only at hvs hp2
          rw [Prod.mk.injEq] at hp2
          have hr2 : r2 = z0 := hp2.2
          subst hr2
          obtain ⟨pre, he, hlen, hval⟩ := readIntBE_eq hv
          have hsub : r2 <:+ r1 := readIntsBE_suffix hvs
          obtain ⟨mid, hr1, hc⟩ := split_consumed he hsub
          subst hc
          rw [hr1] at hvs
          refine ⟨(nlen, mid ++ z), ?_, ?_⟩
          · rw [hval, List.append_assoc]
            exact readIntBE_append _ hlen
          · rw [if_neg hneg]
            simp only [Option.bind_eq_bind', Option.bind_eq_some',
              Option.pure_def, Option.some.injEq]
            exact ⟨(vs, z), readIntsBE_replay z hvs,
              by rw [Prod.mk.injEq]; exact ⟨hp2.1, rfl⟩⟩
      case list =>
        obtain ⟨⟨tv, r1⟩, hv, ⟨cnt, r2⟩, hcnt, cls, hcls, ek, hek, ⟨its, r3⟩,
          hits, hp⟩ := h
        dsimp only at hcnt hcls hits hp
        rw [Prod.mk.injEq] at hp
        have hr3 : r3 = z0 := hp.2
        subst hr3
        obtain ⟨p1, he1, hlen1, hval1⟩ := readIntBE_eq hv
        obtain ⟨p2, he2, hlen2, hval2⟩ := readIntBE_eq hcnt
        have hs3 : r3 <:+ r2 := (reader_suffix m).2.2 _ _ _ _ _ hits
        have hs2 : r3 <:+ r1 := by
          rw [he2]
          exact hs3.trans (List.suffix_append _ _)
        obtain ⟨mid1, hr1, hc⟩ := split_consumed he1 hs2
        subst hc
        obtain ⟨mid2, hr2, hm1⟩ := split_consumed (hr1 ▸ he2) hs3
        subst hm1
        rw [hr2] at hits
        refine ⟨(tv, (p2 ++ mid2) ++ z), ?_, (cnt, mid2 ++ z), ?_, cls, hcls,
          ek, hek, (its, z), ihElems _ _ _ _ _ _ hits hz, ?_⟩
        · rw [hval1, List.append_assoc]
          exact readIntBE_append _ hlen1
        · rw [hval2, List.append_assoc]
          exact readIntBE_append _ hlen2
        · rw [Prod.mk.injEq]
          exact ⟨hp.1, rfl⟩
      case compound =>
        obtain ⟨⟨es0, r⟩, hb, hp⟩ := h
        dsimp only at hp
        rw [Prod.mk.injEq] at hp
        rw [hp.2] at hb
        exact ⟨(es0, z), ihBody _ _ _ _ _ hb hz,
          by rw [Prod.mk.injEq]; exact ⟨hp.1, rfl⟩⟩
    · intro acc c z0 es z h hz
      rw [readCompoundBody] at h
      rw [readCompoundBody]
      simp only [Option.bind_eq_bind', Option.bind_eq_some'] at h ⊢
      obtain ⟨⟨tagId, r1⟩, hid, h2⟩ := h
      dsimp only at h2
      obtain ⟨p1, he1, hlen1, hval1⟩ := readIntBE_eq hid
      by_cases htag : tagId = 0
      · rw [if_pos htag] at h2
        simp only [Option.some.injEq, Prod.mk.injEq] at h2
        rw [h2.2] at he1
        have hc : c = p1 := List.append_cancel_right he1
        subst hc
        refine ⟨(tagId, z), by rw [hval1]; exact readIntBE_append z hlen1, ?_⟩
        dsimp only
        rw [if_pos htag]
        simp only [Option.some.injEq, Prod.mk.injEq]
        exact ⟨h2.1, trivial⟩
      · rw [if_neg htag] at h2
        simp only [Option.bind_eq_bind', Option.bind_eq_some'] at h2
        obtain ⟨cls, hcls, k, hk, ⟨t, r2⟩, ht, hrec⟩ := h2
        dsimp only at ht hrec
        have hsrec : z0 <:+ r2 := (reader_suffix m).2.1 _ _ _ _ hrec
        have hsr2 : r2 <:+ r1 := readTag_suffix ht
        have hs1 : z0 <:+ r1 := hsrec.trans hsr2
        obtain ⟨mid1, hr1, hc⟩ := split_consumed he1 hs1
        subst hc
        obtain ⟨q, hq⟩ := hsr2
        have heq2 : mid1 ++ z0 = q ++ r2 := by rw [← hr1, hq]
        obtain ⟨mid2, hr2, hm1⟩ := split_consumed heq2 hsrec
        subst hm1
        have ht2 : readTag m k true (q ++ (mid2 ++ z0)) =
            some (t, mid2 ++ z0) := by
          rw [← hr2, hq]
          rw [hr2] at ht ⊢
          exact ht
        have ht3 := ihTagT k q (mid2 ++ z0) t (mid2 ++ z) ht2
          (prefix_append_left mid2 hz)
        rw [hr2] at hrec
        have hrec2 := ihBody _ mid2 z0 es z hrec hz
        refine ⟨(tagId, (q ++ mid2) ++ z), ?_, ?_⟩
        · rw [hval1, List.append_assoc]
          exact readIntBE_append _ hlen1
        · dsimp only
          rw [if_neg htag]
          simp only [Option.bind_eq_bind', Option.bind_eq_some']
          refine ⟨cls, hcls, k, hk, (t, mid2 ++ z), ?_, hrec2⟩
          rw [List.append_assoc]
          exact ht3
    · intro k cnt c z0 ts z h hz
      cases cnt with
      | zero =>
        rw [readElems] at h ⊢
        simp only [Option.some.injEq, Prod.mk.injEq] at h ⊢
        have hc : c = [] := by
          have hlen : (c ++ z0).length = z0.length := by rw [h.2]
          simp only [List.length_append] at hlen
          exact List.length_eq_zero.mp (by omega)
        subst hc
        exact ⟨h.1, rfl⟩
      | succ c2 =>
        rw [readElems] at h
        rw [readElems]
        simp only [Option.bind_eq_bind', Option.bind_eq_some',
          Option.pure_def, Option.some.injEq] at h ⊢
        obtain ⟨⟨t, r1⟩, ht, ⟨ts2, r2⟩, hts, hp⟩ := h
        dsimp only at hts hp
        rw [Prod.mk.injEq] at hp
        rw [hp.2] at hts
        have hsel : z0 <:+ r1 := (reader_suffix m).2.2 _ _ _ _ _ hts
        have hst : r1 <:+ c ++ z0 := readTag_suffix ht
        obtain ⟨q, hq⟩ := hst
        obtain ⟨mid1, hr1, hc⟩ := split_consumed hq.symm hsel
        subst hc
        have ht2 : readTag m k false (q ++ (mid1 ++ z0)) =
            some (t, mid1 ++ z0) := by
          rw [← hr1, hq]
          rw [hr1] at ht ⊢
          exact ht
        have ht3 := ihTag k q (mid1 ++ z0) t (mid1 ++ z) ht2
          (prefix_append_left mid1 hz)
        rw [hr1] at hts
        have hts2 := ihElems k c2 mid1 z0 ts2 z hts hz
        refine ⟨(t, mid1 ++ z), ?_, (ts2, z), hts2, ?_⟩
        · rw [List.append_assoc]
          exact ht3
        · rw [Prod.mk.injEq]
          exact ⟨hp.1, rfl⟩

/-- Replay, packaged for either a named or an unnamed read: a read that
consumed exactly `c` behaves identically when the tail beyond `c` is
replaced by any prefix of the old tail. -/
theorem readTag_replay {f : Nat} {k : TagKind} {hn : Bool} {c z0 : List Nat}
    {v : Tag} (z : List Nat)
    (h : readTag f k hn (c ++ z0) = some (v, z0)) (hz : z <+: z0) :
    readTag f k hn (c ++ z) = some (v, z) := by
  cases hn
  · exact (reader_replay f).1 _ _ _ _ _ h hz
  · rw [readTag_true_eq] at h ⊢
    simp only [Option.bind_eq_bind', Option.bind_eq_some',
      Option.map_eq_some'] at h ⊢
    obtain ⟨⟨s, xs1⟩, hname, ⟨q, r2⟩, hq, hqr⟩ := h
    dsimp only at hq hqr
    rw [Prod.mk.injEq] at hqr
    rw [hqr.2] at hq
    have hsub : z0 <:+ xs1 := readTag_suffix hq
    obtain ⟨cn, hcn⟩ := readUtf8_suffix hname
    obtain ⟨mid, hxs1, hc⟩ := split_consumed hcn.symm hsub
    subst hc
    rw [hxs1] at hname hq
    have hname2 := readUtf8_replay (mid ++ z)
      (by rw [← List.append_assoc]; exact hname)
      (prefix_append_left mid hz)
    have hq2 := (reader_replay f).1 _ _ _ _ _ hq hz
    refine ⟨(s, mid ++ z), ?_, (q, z), hq2, ?_⟩
    · rw [List.append_assoc]
      exact hname2
    · simp [hqr.1]

/-- Truncation family: a reader that consumed exactly `c` with tail `z0`,
run on a strict prefix of `c` alone, either fails or — only through the
soft short-read of a string body, never for a compound — succeeds having
consumed the whole prefix. -/
theorem reader_trunc (f : Nat) :
    (∀ (k : TagKind) (c z0 : List Nat) (v : Tag) (n : Nat),
      readTag f k false (c ++ z0) = some (v, z0) → n < c.length →
        readTag f k false (c.take n) = none ∨
          (k ≠ TagKind.compound ∧
            ∃ v2, readTag f k false (c.take n) = some (v2, []))) ∧
    (∀ (acc : List (Str × Tag)) (c z0 : List Nat) (es : List (Str × Tag))
      (n : Nat),
      readCompoundBody f acc (c ++ z0) = some (es, z0) → n < c.length →
        readCompoundBody f acc (c.take n) = none) ∧
    (∀ (k : TagKind) (cnt : Nat) (c z0 : List Nat) (ts : List Tag) (n : Nat),
      readElems f k cnt (c ++ z0) = some (ts, z0) → n < c.length →
        readElems f k cnt (c.take n) = none ∨
          ∃ ts2, readElems f k cnt (c.take n) = some (ts2, [])) := by
  induction f with
  | zero =>
    refine ⟨?_, ?_, ?_⟩
    · intro k c z0 v n h hn
      exact absurd h (by simp [readTag])
    · intro acc c z0 es n h hn
      exact absurd h (by simp [readCompoundBody])
    · intro k cnt c z0 ts n h hn
      cases cnt with
      | zero =>
        rw [readElems] at h
        simp only [Option.some.injEq, Prod.mk.injEq] at h
        have hc : c = [] := by
          have hlen : (c ++ z0).length = z0.length := by rw [h.2]
          simp only [List.length_append] at hlen
          exact List.length_eq_zero.mp (by omega)
        rw [hc] at hn
        exact absurd hn (by simp)
      | succ m => exact absurd h (by simp [readElems])
  | succ m ih =>
    obtain ⟨ihTag, ihBody, ihElems⟩ := ih
    have ihTagT : ∀ (k : TagKind) (c z0 : List Nat) (v : Tag) (n : Nat),
        readTag m k true (c ++ z0) = some (v, z0) → n < c.length →
          readTag m k true (c.take n) = none ∨
            ∃ v2, readTag m k true (c.take n) = some (v2, []) := by
      intro k c z0 v n h hn
      rw [readTag_true_eq] at h
      simp only [Option.bind_eq_bind', Option.bind_eq_some',
        Option.map_eq_some'] at h
      obtain ⟨⟨s, xs1⟩, hname, ⟨q, r2⟩, hq, hqr⟩ := h
      dsimp only at hq hqr
      rw [Prod.mk.injEq] at hqr
      rw [hqr.2] at hq
      have hsub : z0 <:+ xs1 := readTag_suffix hq
      obtain ⟨cn, hcn⟩ := readUtf8_suffix hname
      obtain ⟨mid, hxs1, hc⟩ := split_consumed hcn.symm hsub
      subst hc
      rw [hxs1] at hname hq
      have hname3 : readUtf8 (cn ++ (mid ++ z0)) = some (s, mid ++ z0) := by
        rw [← List.append_assoc]
        exact hname
      rcases Nat.lt_trichotomy n cn.length with hlt | heq | hgt
      · have htake : (cn ++ mid).take n = cn.take n := by
          rw [List.take_append_eq_append_take, Nat.sub_eq_zero_of_le hlt.le,
            List.take_zero, List.append_nil]
        rcases readUtf8_fail hname3 hlt with hfail | ⟨s2, hsome⟩
        · left
          rw [readTag_true_eq, htake, hfail]
          rfl
        · left
          rw [readTag_true_eq, htake, hsome]
          simp only [Option.some_bind]
          rw [readTag_false_nil]
          rfl
      · have htake : (cn ++ mid).take n = cn := List.take_left' heq.symm
        have hname4 : readUtf8 cn = some (s, []) := by
          have h5 := readUtf8_replay [] hname3 List.nil_prefix
          rwa [List.append_nil] at h5
        left
        rw [readTag_true_eq, htake, hname4]
        simp only [Option.some_bind]
        rw [readTag_false_nil]
        rfl
      · have hj2 : n - cn.length < mid.length := by
          rw [List.length_append] at hn
          omega
        have htake : (cn ++ mid).take n = cn ++ mid.take (n - cn.length) := by
          rw [List.take_append_eq_append_take, List.take_of_length_le hgt.le]
        have hname5 : readUtf8 (cn ++ mid.take (n - cn.length)) =
            some (s, mid.take (n - cn.length)) :=
          readUtf8_replay _ hname3
            ((List.take_prefix _ _).trans (List.prefix_append _ _))
        rcases ihTag k mid z0 q (n - cn.length) hq hj2 with hnone | ⟨hkc, v2, hv2⟩
        · left
          rw [readTag_true_eq, htake, hname5]
          simp only [Option.some_bind]
          rw [hnone]
          rfl
        · right
          refine ⟨setTagName v2 (some s), ?_⟩
          rw [readTag_true_eq, htake, hname5]
          simp only [Option.some_bind]
          rw [hv2]
          rfl
    refine ⟨?_, ?_, ?_⟩
    · intro k c z0 v n h hn
      rw [readTag.eq_def] at h
      cases k <;>
        simp only [Bool.false_eq_true, if_false, Option.some_bind,
          Option.bind_eq_bind', Option.bind_eq_some', Option.pure_def,
          Option.some.injEq] at h
      case byte =>
        obtain ⟨⟨v0, r⟩, hv, hp⟩ := h
        rw [Prod.mk.injEq] at hp
        dsimp only at hp
        obtain ⟨pre, he, hlen, hval⟩ := readIntBE_eq hv
        rw [hp.2] at he
        have hc : c = pre := List.append_cancel_right he
        have hc1 : c.length = 1 := by rw [hc, hlen]
        left
        rw [readTag.eq_def]
        simp only [Bool.false_eq_true, if_false, Option.some_bind,
          Option.bind_eq_bind']
        rw [readIntBE_short (by rw [List.length_take]; omega)]
        rfl
      case short =>
        obtain ⟨⟨v0, r⟩, hv, hp⟩ := h
        rw [Prod.mk.injEq] at hp
        dsimp only at hp
        obtain ⟨pre, he, hlen, hval⟩ := readIntBE_eq hv
        rw [hp.2] at he
        have hc : c = pre := List.append_cancel_right he
        have hc1 : c.length = 2 := by rw [hc, hlen]
        left
        rw [readTag.eq_def]
        simp only [Bool.false_eq_true, if_false, Option.some_bind,
          Option.bind_eq_bind']
        rw [readIntBE_short (by rw [List.length_take]; omega)]
        rfl
      case int =>
        obtain ⟨⟨v0, r⟩, hv, hp⟩ := h
        rw [Prod.mk.injEq] at hp
        dsimp only at hp
        obtain ⟨pre, he, hlen, hval⟩ := readIntBE_eq hv
        rw [hp.2] at he
        have hc : c = pre := List.append_cancel_right he
        have hc1 : c.length = 4 := by rw [hc, hlen]
        left
        rw [readTag.eq_def]
        simp only [Bool.false_eq_true, if_false, Option.some_bind,
          Option.bind_eq_bind']
        rw [readIntBE_short (by rw [List.length_take]; omega)]
        rfl
      case long =>
        obtain ⟨⟨v0, r⟩, hv, hp⟩ := h
        rw [Prod.mk.injEq] at hp
        dsimp only at hp
        obtain ⟨pre, he, hlen, hval⟩ := readIntBE_eq hv
        rw [hp.2] at he
        have hc : c = pre := List.append_cancel_right he
        have hc1 : c.length = 8 := by rw [hc, hlen]
        left
        rw [readTag.eq_def]
        simp only [Bool.false_eq_true, if_false, Option.some_bind,
          Option.bind_eq_bind']
        rw [readIntBE_short (by rw [List.length_take]; omega)]
        rfl
      case float =>
        obtain ⟨⟨b0, r⟩, hv, hp⟩ := h
        rw [Prod.mk.injEq] at hp
        dsimp only at hp
        obtain ⟨he, hlen⟩ := readBytesExact_eq hv
        rw [hp.2] at he
        have hc : c = b0 := List.append_cancel_right he
        have hc1 : c.length = 4 := by rw [hc, hlen]
        left
        rw [readTag.eq_def]
        simp only [Bool.false_eq_true, if_false, Option.some_bind,
          Option.bind_eq_bind']
        rw [readBytesExact_short (by rw [List.length_take]; omega)]
        rfl
      case double =>
        obtain ⟨⟨b0, r⟩, hv, hp⟩ := h
        rw [Prod.mk.injEq] at hp
        dsimp only at hp
        obtain ⟨he, hlen⟩ := readBytesExact_eq hv
        rw [hp.2] at he
        have hc : c = b0 := List.append_cancel_right he
        have hc1 : c.length = 8 := by rw [hc, hlen]
        left
        rw [readTag.eq_def]
        simp only [Bool.false_eq_true, if_false, Option.some_bind,
          Option.bind_eq_bind']
        rw [readBytesExact_short (by rw [List.length_take]; omega)]
        rfl
      case string =>
        obtain ⟨⟨s0, r⟩, hv, hp⟩ := h
        rw [Prod.mk.injEq] at hp
        dsimp only at hp
        rw [hp.2] at hv
        rcases readUtf8_fail hv hn with hfail | ⟨s2, hsome⟩
        · left
          rw [readTag.eq_def]
          simp only [Bool.false_eq_true, if_false, Option.some_bind,
            Option.bind_eq_bind']
          rw [hfail]
          rfl
        · right
          refine ⟨by simp, Tag.string none s2, ?_⟩
          rw [readTag.eq_def]
          simp only [Bool.false_eq_true, if_false, Option.some_bind,
            Option.bind_eq_bind']
          rw [hsome]
          rfl
      case byteArray =>
        obtain ⟨⟨nlen, r1⟩, hv, hp⟩ := h
        dsimp only at hp
        by_cases hneg : nlen < 0
        · rw [if_pos hneg] at hp
          exact absurd hp (by simp)
        · rw [if_neg hneg] at hp
          simp only [Option.bind_eq_bind', Option.bind_eq_some',
            Option.pure_def, Option.some.injEq] at hp
          obtain ⟨⟨vs, r2⟩, hvs, hp2⟩ := hp
          dsimp only at hvs hp2
          rw [Prod.mk.injEq] at hp2
          rw [hp2.2] at hvs
          obtain ⟨p1, he1, hlen1, hval1⟩ := readIntBE_eq hv
          rw [hval1] at hvs hneg
          have hsub : z0 <:+ r1 := readIntsBE_suffix hvs
          obtain ⟨mid, hr1, hc⟩ := split_consumed he1 hsub
          subst hc
          rw [hr1] at hvs
          left
          rw [readTag.eq_def]
          simp only [Bool.false_eq_true, if_false, Option.some_bind,
            Option.bind_eq_bind']
          by_cases hsm : n < 4
          · rw [readIntBE_short (by rw [List.length_take]; omega)]
            rfl
          · have htake : (p1 ++ mid).take n = p1 ++ mid.take (n - p1.length) := by
              rw [List.take_append_eq_append_take,
                List.take_of_length_le (by omega)]
            rw [htake, readIntBE_append _ hlen1]
            simp only [Option.some_bind]
            rw [if_neg hneg]
            have hmidlen : n - p1.length < mid.length := by
              rw [List.length_append] at hn
              omega
            rw [readIntsBE_fail hvs hmidlen]
            rfl
      case intArray =>
        obtain ⟨⟨nlen, r1⟩, hv, hp⟩ := h
        dsimp only at hp
        by_cases hneg : nlen < 0
        · rw [if_pos hneg] at hp
          exact absurd hp (by simp)
        · rw [if_neg hneg] at hp
          simp only [Option.bind_eq_bind', Option.bind_eq_some',
            Option.pure_def, Option.some.injEq] at hp
          obtain ⟨⟨vs, r2⟩, hvs, hp2⟩ := hp
          dsimp only at hvs hp2
          rw [Prod.mk.injEq] at hp2
          rw [hp2.2] at hvs
          obtain ⟨p1, he1, hlen1, hval1⟩ := readIntBE_eq hv
          rw [hval1] at hvs hneg
          have hsub : z0 <:+ r1 := readIntsBE_suffix hvs
          obtain ⟨mid, hr1, hc⟩ := split_consumed he1 hsub
          subst hc
          rw [hr1] at hvs
          left
          rw [readTag.eq_def]
          simp only [Bool.false_eq_true, if_false, Option.some_bind,
            Option.bind_eq_bind']
          by_cases hsm : n < 4
          · rw [readIntBE_short (by rw [List.length_take]; omega)]
            rfl
          · have htake : (p1 ++ mid).take n = p1 ++ mid.take (n - p1.length) := by
              rw [List.take_append_eq_append_take,
                List.take_of_length_le (by omega)]
            rw [htake, readIntBE_append _ hlen1]
            simp only [Option.some_bind]
            rw [if_neg hneg]
            have hmidlen : n - p1.length < mid.length := by
              rw [List.length_append] at hn
              omega
            rw [readIntsBE_fail hvs hmidlen]
            rfl
      case list =>
        obtain ⟨⟨tv, r1⟩, hv, ⟨cnt, r2⟩, hcnt, cls, hcls, ek, hek, ⟨its, r3⟩,
          hits, hp⟩ := h
        dsimp only at hcnt hcls hits hp
        rw [Prod.mk.injEq] at hp
        rw [hp.2] at hits
        obtain ⟨p1, he1, hlen1, hval1⟩ := readIntBE_eq hv
        obtain ⟨p2, he2, hlen2, hval2⟩ := readIntBE_eq hcnt
        rw [hval1] at hcls
        rw [hval2] at hits
        have hs3 : z0 <:+ r2 := (reader_suffix m).2.2 _ _ _ _ _ hits
        have hs2 : z0 <:+ r1 := by
          rw [he2]
          exact hs3.trans (List.suffix_append _ _)
        obtain ⟨mid1, hr1, hc⟩ := split_consumed he1 hs2
        subst hc
        obtain ⟨mid2, hr2, hm1⟩ := split_consumed (hr1 ▸ he2) hs3
        subst hm1
        rw [hr2] at hits
        by_cases h1 : n < 1
        · left
          rw [readTag.eq_def]
          simp only [Bool.false_eq_true, if_false, Option.some_bind,
            Option.bind_eq_bind']
          rw [readIntBE_short (by rw [List.length_take]; omega)]
          rfl
        · have htake1 : (p1 ++ (p2 ++ mid2)).take n =
              p1 ++ (p2 ++ mid2).take (n - p1.length) := by
            rw [List.take_append_eq_append_take,
              List.take_of_length_le (by omega)]
          by_cases h5 : n - p1.length < 4
          · left
            rw [readTag.eq_def]
            simp only [Bool.false_eq_true, if_false, Option.some_bind,
              Option.bind_eq_bind']
            rw [htake1, readIntBE_append _ hlen1]
            simp only [Option.some_bind]
            rw [readIntBE_short (by rw [List.length_take]; omega)]
            rfl
          · have htake2 : (p2 ++ mid2).take (n - p1.length) =
                p2 ++ mid2.take (n - p1.length - p2.length) := by
              rw [List.take_append_eq_append_take,
                List.take_of_length_le (by omega)]
            have hmid2 : n - p1.length - p2.length < mid2.length := by
              rw [List.length_append, List.length_append] at hn
              omega
            rcases ihElems ek (unpackBE p2).toNat mid2 z0 its
                (n - p1.length - p2.length) hits hmid2 with
              hnone | ⟨ts2, hsoft⟩
            · left
              rw [readTag.eq_def]
              simp only [Bool.false_eq_true, if_false, Option.some_bind,
                Option.bind_eq_bind']
              rw [htake1, readIntBE_append _ hlen1]
              simp only [Option.some_bind]
              rw [htake2, readIntBE_append _ hlen2]
              simp only [Option.some_bind]
              rw [hcls]
              simp only [Option.some_bind]
              rw [hek]
              simp only [Option.some_bind]
              rw [hnone]
              rfl
            · right
              refine ⟨by simp, Tag.list none ek (ts2.map LElem.tag), ?_⟩
              rw [readTag.eq_def]
              simp only [Bool.false_eq_true, if_false, Option.some_bind,
                Option.bind_eq_bind']
              rw [htake1, readIntBE_append _ hlen1]
              simp only [Option.some_bind]
              rw [htake2, readIntBE_append _ hlen2]
              simp only [Option.some_bind]
              rw [hcls]
              simp only [Option.some_bind]
              rw [hek]
              simp only [Option.some_bind]
              rw [hsoft]
              rfl
      case compound =>
        obtain ⟨⟨es0, r⟩, hb, hp⟩ := h
        dsimp only at hp
        rw [Prod.mk.injEq] at hp
        rw [hp.2] at hb
        left
        rw [readTag.eq_def]
        simp only [Bool.false_eq_true, if_false, Option.some_bind,
          Option.bind_eq_bind']
        rw [ihBody _ _ _ _ _ hb hn]
        rfl
    · intro acc c z0 es n h hn
      rw [readCompoundBody] at h
      simp only [Option.bind_eq_bind', Option.bind_eq_some'] at h
      obtain ⟨⟨tagId, r1⟩, hid, h2⟩ := h
      dsimp only at h2
      obtain ⟨p1, he1, hlen1, hval1⟩ := readIntBE_eq hid
      by_cases htag : tagId = 0
      · rw [if_pos htag] at h2
        simp only [Option.some.injEq, Prod.mk.injEq] at h2
        rw [h2.2] at he1
        have hc : c = p1 := List.append_cancel_right he1
        have hc1 : c.length = 1 := by rw [hc, hlen1]
        rw [readCompoundBody]
        simp only [Option.bind_eq_bind']
        rw [readIntBE_short (by rw [List.length_take]; omega)]
        rfl
      · rw [if_neg htag] at h2
        simp only [Option.bind_eq_bind', Option.bind_eq_some'] at h2
        obtain ⟨cls, hcls, k, hk, ⟨t, r2⟩, ht, hrec⟩ := h2
        dsimp only at ht hrec
        rw [hval1] at htag hcls
        have hsrec : z0 <:+ r2 := (reader_suffix m).2.1 _ _ _ _ hrec
        have hsr2 : r2 <:+ r1 := readTag_suffix ht
        have hs1 : z0 <:+ r1 := hsrec.trans hsr2
        obtain ⟨mid1, hr1, hc⟩ := split_consumed he1 hs1
        subst hc
        obtain ⟨q, hq⟩ := hsr2
        have heq2 : mid1 ++ z0 = q ++ r2 := by rw [← hr1, hq]
        obtain ⟨mid2, hr2, hm1⟩ := split_consumed heq2 hsrec
        subst hm1
        have ht2 : readTag m k true (q ++ (mid2 ++ z0)) =
            some (t, mid2 ++ z0) := by
          rw [← hr2, hq]
          rw [hr2] at ht ⊢
          exact ht
        rw [hr2] at hrec
        rw [readCompoundBody]
        simp only [Option.bind_eq_bind']
        by_cases h1 : n < 1
        · rw [readIntBE_short (by rw [List.length_take]; omega)]
          rfl
        · have htake1 : (p1 ++ (q ++ mid2)).take n =
              p1 ++ (q ++ mid2).take (n - p1.length) := by
            rw [List.take_append_eq_append_take,
              List.take_of_length_le (by omega)]
          rw [htake1, readIntBE_append _ hlen1]
          simp only [Option.some_bind]
          rw [if_neg htag]
          rw [hcls]
          simp only [Option.some_bind]
          rw [hk]
          simp only [Option.some_bind]
          rcases Nat.lt_trichotomy (n - p1.length) q.length with hlt | heqq | hgt
          · have htake2 : (q ++ mid2).take (n - p1.length) =
                q.take (n - p1.length) := by
              rw [List.take_append_eq_append_take,
                Nat.sub_eq_zero_of_le hlt.le, List.take_zero, List.append_nil]
            rcases ihTagT k q (mid2 ++ z0) t (n - p1.length) ht2 hlt with
              hnone | ⟨v2, hv2⟩
            · rw [htake2, hnone]
              rfl
            · rw [htake2, hv2]
              simp only [Option.some_bind]
              exact readCompoundBody_nil _ _
          · have htake2 : (q ++ mid2).take (n - p1.length) = q :=
              List.take_left' heqq.symm
            have hchild : readTag m k true q = some (t, []) := by
              have h5 := readTag_replay [] ht2 List.nil_prefix
              rwa [List.append_nil] at h5
            rw [htake2, hchild]
            simp only [Option.some_bind]
            exact readCompoundBody_nil _ _
          · have hj2 : n - p1.length - q.length < mid2.length := by
              rw [List.length_append, List.length_append] at hn
              omega
            have htake2 : (q ++ mid2).take (n - p1.length) =
                q ++ mid2.take (n - p1.length - q.length) := by
              rw [List.take_append_eq_append_take,
                List.take_of_length_le (by omega)]
            have hchild := readTag_replay
              (mid2.take (n - p1.length - q.length)) ht2
              ((List.take_prefix _ _).trans (List.prefix_append _ _))
            rw [htake2, hchild]
            simp only [Option.some_bind]
            exact ihBody _ _ _ _ _ hrec hj2
    · intro k cnt c z0 ts n h hn
      cases cnt with
      | zero =>
        rw [readElems] at h
        simp only [Option.some.injEq, Prod.mk.injEq] at h
        have hc : c = [] := by
          have hlen : (c ++ z0).length = z0.length := by rw [h.2]
          simp only [List.length_append] at hlen
          exact List.length_eq_zero.mp (by omega)
        rw [hc] at hn
        exact absurd hn (by simp)
      | succ c2 =>
        rw [readElems] at h
        simp only [Option.bind_eq_bind', Option.bind_eq_some',
          Option.pure_def, Option.some.injEq] at h
        obtain ⟨⟨t, r1⟩, ht, ⟨ts2, r2⟩, hts, hp⟩ := h
        dsimp only at hts hp
        rw [Prod.mk.injEq] at hp
        rw [hp.2] at hts
        have hsel : z0 <:+ r1 := (reader_suffix m).2.2 _ _ _ _ _ hts
        have hst : r1 <:+ c ++ z0 := readTag_suffix ht
        obtain ⟨q, hq⟩ := hst
        obtain ⟨mid1, hr1, hc⟩ := split_consumed hq.symm hsel
        subst hc
        have ht2 : readTag m k false (q ++ (mid1 ++ z0)) =
            some (t, mid1 ++ z0) := by
          rw [← hr1, hq]
          rw [hr1] at ht ⊢
          exact ht
        rw [hr1] at hts
        rcases Nat.lt_trichotomy n q.length with hlt | heqq | hgt
        · have htake : (q ++ mid1).take n = q.take n := by
            rw [List.take_append_eq_append_take,
              Nat.sub_eq_zero_of_le hlt.le, List.take_zero, List.append_nil]
          rcases ihTag k q (mid1 ++ z0) t n ht2 hlt with hnone | ⟨hkc, v2, hv2⟩
          · left
            rw [readElems]
            simp only [Option.bind_eq_bind']
            rw [htake, hnone]
            rfl
          · rcases readElems_nil m k c2 with hen | hes
            · left
              rw [readElems]
              simp only [Option.bind_eq_bind']
              rw [htake, hv2]
              simp only [Option.some_bind]
              rw [hen]
              rfl
            · right
              refine ⟨[v2], ?_⟩
              rw [readElems]
              simp only [Option.bind_eq_bind']
              rw [htake, hv2]
              simp only [Option.some_bind]
              rw [hes]
              rfl
        · have htake : (q ++ mid1).take n = q := List.take_left' heqq.symm
          have hchild : readTag m k false q = some (t, []) := by
            have h5 := readTag_replay [] ht2 List.nil_prefix
            rwa [List.append_nil] at h5
          rcases readElems_nil m k c2 with hen | hes
          · left
            rw [readElems]
            simp only [Option.bind_eq_bind']
            rw [htake, hchild]
            simp only [Option.some_bind]
            rw [hen]
            rfl
          · right
            refine ⟨[t], ?_⟩
            rw [readElems]
            simp only [Option.bind_eq_bind']
            rw [htake, hchild]
            simp only [Option.some_bind]
            rw [hes]
            rfl
        · have hj2 : n - q.length < mid1.length := by
            rw [List.length_append] at hn
            omega
          have htake : (q ++ mid1).take n = q ++ mid1.take (n - q.length) := by
            rw [List.take_append_eq_append_take,
              List.take_of_length_le hgt.le]
          have hchild := readTag_replay (mid1.take (n - q.length)) ht2
            ((List.take_prefix _ _).trans (List.prefix_append _ _))
          rcases ihElems k c2 mid1 z0 ts2 (n - q.length) hts hj2 with
            hnone | ⟨ts3, hsoft⟩
          · left
            rw [readElems]
            simp only [Option.bind_eq_bind']
            rw [htake, hchild]
            simp only [Option.some_bind]
            rw [hnone]
            rfl
          · right
            refine ⟨t :: ts3, ?_⟩
            rw [readElems]
            simp only [Option.bind_eq_bind']
            rw [htake, hchild]
            simp only [Option.some_bind]
            rw [hsoft]
            rfl

/-- A named compound read that consumed `c` fails outright on every strict
prefix of `c`: the body loop needs the closing end byte, which a strict
prefix lacks, and a truncated name either fails or leaves nothing to read. -/
theorem readTag_trunc_root {f : Nat} {c z0 : List Nat} {t : Tag} {n : Nat}
    (h : readTag f TagKind.compound true (c ++ z0) = some (t, z0))
    (hn : n < c.length) :
    readTag f TagKind.compound true (c.take n) = none := by
  rw [readTag_true_eq] at h
  simp only [Option.bind_eq_bind', Option.bind_eq_some',
    Option.map_eq_some'] at h
  obtain ⟨⟨s, xs1⟩, hname, ⟨q, r2⟩, hq, hqr⟩ := h
  dsimp only at hq hqr
  rw [Prod.mk.injEq] at hqr
  rw [hqr.2] at hq
  have hsub : z0 <:+ xs1 := readTag_suffix hq
  obtain ⟨cn, hcn⟩ := readUtf8_suffix hname
  obtain ⟨mid, hxs1, hc⟩ := split_consumed hcn.symm hsub
  subst hc
  rw [hxs1] at hname hq
  have hname3 : readUtf8 (cn ++ (mid ++ z0)) = some (s, mid ++ z0) := by
    rw [← List.append_assoc]
    exact hname
  rcases Nat.lt_trichotomy n cn.length with hlt | heq | hgt
  · have htake : (cn ++ mid).take n = cn.take n := by
      rw [List.take_append_eq_append_take, Nat.sub_eq_zero_of_le hlt.le,
        List.take_zero, List.append_nil]
    rcases readUtf8_fail hname3 hlt with hfail | ⟨s2, hsome⟩
    · rw [readTag_true_eq, htake, hfail]
      rfl
    · rw [readTag_true_eq, htake, hsome]
      simp only [Option.some_bind]
      rw [readTag_false_nil]
      rfl
  · have htake : (cn ++ mid).take n = cn := List.take_left' heq.symm
    have hname4 : readUtf8 cn = some (s, []) := by
      have h5 := readUtf8_replay [] hname3 List.nil_prefix
      rwa [List.append_nil] at h5
    rw [readTag_true_eq, htake, hname4]
    simp only [Option.some_bind]
    rw [readTag_false_nil]
    rfl
  · have hj2 : n - cn.length < mid.length := by
      rw [List.length_append] at hn
      omega
    have htake : (cn ++ mid).take n = cn ++ mid.take (n - cn.length) := by
      rw [List.take_append_eq_append_take, List.take_of_length_le hgt.le]
    have hname5 : readUtf8 (cn ++ mid.take (n - cn.length)) =
        some (s, mid.take (n - cn.length)) :=
      readUtf8_replay _ hname3
        ((List.take_prefix _ _).trans (List.prefix_append _ _))
    rcases (reader_trunc f).1 TagKind.compound mid z0 q (n - cn.length) hq hj2
      with hnone | ⟨hkc, _, _⟩
    · rw [readTag_true_eq, htake, hname5]
      simp only [Option.some_bind]
      rw [hnone]
      rfl
    · exact absurd rfl hkc

/-- A `none` result survives lowering the fuel: more fuel never turns a
success into a failure, so less fuel never turns this failure into a
success. -/
theorem readTag_none_of_none {f g : Nat} (hfg : f ≤ g) {k : TagKind}
    {hn : Bool} {xs : List Nat} (h : readTag g k hn xs = none) :
    readTag f k hn xs = none := by
  cases hx : readTag f k hn xs with
  | none => rfl
  | some x =>
    have h2 := readTag_mono_le hfg hx
    rw [h] at h2
    exact absurd h2 (by simp)

/-- C4 (confirmed): for a valid encoded document — one whose decode
succeeds consuming every byte — decoding any strictly shorter prefix
fails (`none`, the model's rendering of the decode errors the source
raises); no truncation point ever yields a successfully decoded tree. -/
theorem c4_truncated_prefix_never_decodes (d : List Nat) (t : Tag)
    (h : decodeDocAux d = some (t, [])) (n : Nat) (hn : n < d.length) :
    decodeDoc (d.take n) = none := by
  unfold decodeDocAux at h
  simp only [Option.bind_eq_bind', Option.bind_eq_some'] at h
  obtain ⟨⟨b, r⟩, hb, h2⟩ := h
  dsimp only at h2
  by_cases hb10 : b = 10
  · rw [if_pos hb10] at h2
    obtain ⟨p1, he1, hlen1, hval1⟩ := readIntBE_eq hb
    unfold decodeDoc decodeDocAux
    simp only [Option.bind_eq_bind']
    by_cases h1 : n < 1
    · have hn0 : n = 0 := by omega
      rw [hn0, List.take_zero]
      rfl
    · have hjr : n - 1 < r.length := by
        rw [he1, List.length_append, hlen1] at hn
        omega
      have htake : d.take n = p1 ++ r.take (n - 1) := by
        rw [he1, List.take_append_eq_append_take,
          List.take_of_length_le (by omega)]
        congr 2
        omega
      rw [htake, readIntBE_append _ hlen1]
      simp only [Option.some_bind]
      rw [if_pos (show unpackBE p1 = 10 by rw [← hval1]; exact hb10)]
      have hfull : readTag (d.length + 1) TagKind.compound true (r ++ []) =
          some (t, []) := by
        rw [List.append_nil]
        exact h2
      have hnone := readTag_trunc_root hfull hjr
      have hout : readTag ((p1 ++ r.take (n - 1)).length + 1)
          TagKind.compound true (r.take (n - 1)) = none :=
        readTag_none_of_none
          (by
            rw [he1]
            simp only [List.length_append, List.length_take]
            omega) hnone
      rw [hout]
      rfl
  · rw [if_neg hb10] at h2
    exact absurd h2 (by simp)

/-- Witness for C4 at the concrete document `0A 00 00 00` (root compound
with empty name and no entries), truncated to its first two bytes. -/
theorem c4_witness :
    decodeDocAux [10, 0, 0, 0] = some (Tag.compound (some []) [], []) ∧
      2 < [10, 0, 0, 0].length ∧
      decodeDoc (List.take 2 [10, 0, 0, 0]) = none :=
  ⟨rfl, by decide,
    c4_truncated_prefix_never_decodes [10, 0, 0, 0]
      (Tag.compound (some []) []) rfl 2 (by decide)⟩

end PyNBT
